import Mathlib

/-!
Verification development for the fragbag BOW database engine
(`bowdb/db.go`, `bowdb/search.go`, `bow` package).

Two shallow embeddings are used, matching the two layers of the code:

* a bit-level embedding of the binary record codec and the `DB` read state
  (`DB.write`, `DB.read`, `DB.readItem`, `DB.readNBytes`, `DB.ReadAll`):
  bytes are `Nat` (< 256), 32-bit float frequencies are carried as their
  IEEE-754 bit patterns (`Nat` < 2^32), exactly as they travel on the wire;

* a value-level embedding of the search engine and the distance functions
  (`DB.Search`, `Bow.Cosine`, `Bow.Euclid`): float64/float32 values are
  modelled by `F`, an idealized IEEE arithmetic with exact rational finite
  values plus `nan`/`+inf`/`-inf` special values.  Rounding, overflow and
  signed zero are not modelled; NaN propagation, division by zero and the
  NaN-false comparison semantics are.

The bounded order-statistic tree (`bst` with `insert`, `deleteMin`,
`deleteMax`, live `min`/`max` pointers, `inorder` traversal) is used by
`search.go` but its source file is not part of the repository snapshot;
it is modelled from the spec as an ordered multiset (a list sorted by
distance): `min` is the head, `max` is the last element, and the pointers
are absent (`none`) on an empty tree, as Go nil pointers are.
-/

namespace Fragbag

/-! ## Idealized float arithmetic (value level) -/

/-- Idealized IEEE float: exact rational finite values plus the three
special values.  Signed zero is collapsed to `fin 0`. -/
inductive F
  | nan
  | pinf
  | ninf
  | fin (q : ℚ)
deriving DecidableEq, Repr

/-- True exactly on the NaN value (`math.IsNaN`). -/
def F.isNan : F → Bool
  | .nan => true
  | _ => false

/-- IEEE negation. -/
def fneg : F → F
  | .nan => .nan
  | .pinf => .ninf
  | .ninf => .pinf
  | .fin q => .fin (-q)

/-- IEEE addition, exact on finite values. -/
def fadd : F → F → F
  | .nan, _ => .nan
  | _, .nan => .nan
  | .pinf, .ninf => .nan
  | .ninf, .pinf => .nan
  | .pinf, _ => .pinf
  | _, .pinf => .pinf
  | .ninf, _ => .ninf
  | _, .ninf => .ninf
  | .fin a, .fin b => .fin (a + b)

/-- IEEE subtraction, exact on finite values. -/
def fsub : F → F → F
  | .nan, _ => .nan
  | _, .nan => .nan
  | .pinf, .pinf => .nan
  | .ninf, .ninf => .nan
  | .pinf, _ => .pinf
  | _, .pinf => .ninf
  | .ninf, _ => .ninf
  | _, .ninf => .pinf
  | .fin a, .fin b => .fin (a - b)

/-- IEEE multiplication, exact on finite values; `0 * inf = nan`. -/
def fmul : F → F → F
  | .nan, _ => .nan
  | _, .nan => .nan
  | .pinf, .pinf => .pinf
  | .pinf, .ninf => .ninf
  | .ninf, .pinf => .ninf
  | .ninf, .ninf => .pinf
  | .pinf, .fin b => if b = 0 then .nan else if 0 < b then .pinf else .ninf
  | .fin a, .pinf => if a = 0 then .nan else if 0 < a then .pinf else .ninf
  | .ninf, .fin b => if b = 0 then .nan else if 0 < b then .ninf else .pinf
  | .fin a, .ninf => if a = 0 then .nan else if 0 < a then .ninf else .pinf
  | .fin a, .fin b => .fin (a * b)

/-- IEEE division, exact on finite values; `0/0 = nan`, `x/0 = ±inf` for
nonzero finite `x` (the model has no signed zero, so the zero divisor is
treated as `+0`), `x/inf = 0`, `inf/inf = nan`. -/
def fdiv : F → F → F
  | .nan, _ => .nan
  | _, .nan => .nan
  | .pinf, .pinf => .nan
  | .pinf, .ninf => .nan
  | .ninf, .pinf => .nan
  | .ninf, .ninf => .nan
  | .pinf, .fin b => if 0 ≤ b then .pinf else .ninf
  | .ninf, .fin b => if 0 ≤ b then .ninf else .pinf
  | .fin _, .pinf => .fin 0
  | .fin _, .ninf => .fin 0
  | .fin a, .fin b =>
      if b = 0 then (if a = 0 then .nan else if 0 < a then .pinf else .ninf)
      else .fin (a / b)

/-- `math.Sqrt`: NaN on negative input, `+inf` for `+inf`.  On nonnegative
rationals realized by `Rat.sqrt`, which is exact whenever the argument is
the square of a rational (all inputs appearing in the theorems below). -/
def fsqrt : F → F
  | .nan => .nan
  | .pinf => .pinf
  | .ninf => .nan
  | .fin q => if q < 0 then .nan else .fin (Rat.sqrt q)

/-- IEEE `<`: false whenever either side is NaN. -/
def flt : F → F → Bool
  | .nan, _ => false
  | _, .nan => false
  | .pinf, _ => false
  | .ninf, .ninf => false
  | .ninf, _ => true
  | .fin _, .pinf => true
  | .fin _, .ninf => false
  | .fin a, .fin b => decide (a < b)

/-- IEEE `≤`: false whenever either side is NaN. -/
def fle : F → F → Bool
  | .nan, _ => false
  | _, .nan => false
  | .ninf, _ => true
  | _, .pinf => true
  | .pinf, _ => false
  | .fin _, .ninf => false
  | .fin a, .fin b => decide (a ≤ b)

/-- IEEE `>` (Go `a > b`), i.e. `b < a`. -/
def fgt (a b : F) : Bool := flt b a

/-- IEEE `≥` (Go `a >= b`), i.e. `b ≤ a`. -/
def fge (a b : F) : Bool := fle b a

/-- Left fold of `fadd` starting from `0`, as the Go accumulation loops do. -/
def sumF (l : List F) : F := l.foldl fadd (F.fin 0)

/-- Squaring, `x * x`. -/
def sqF (x : F) : F := fmul x x

/-- `Bow.Dot` (bow.go): dot product accumulated over the receiver's length;
`zipWith` truncates at the shorter list exactly as the loop bound
`i < len(b.Freqs)` does when the receiver is the shorter vector (Go would
panic if the argument were shorter; length hypotheses below rule that out). -/
def dotF (f1 f2 : List F) : F := sumF (List.zipWith fmul f1 f2)

/-- Sum of squares of a frequency vector (the `mag` accumulators). -/
def sumSq (f : List F) : F := sumF (f.map sqF)

/-- `Bow.Magnitude` (bow.go): `math.Sqrt` of the sum of squares. -/
def magnitudeF (f : List F) : F := fsqrt (sumSq f)

/-- `Bow.Cosine` (bow.go): `1 - dot/sqrt(mag1*mag2)` computed in one loop
over the receiver's length, with the final `math.IsNaN` guard returning
exactly `1.0`.  `mag2` sums squares of the first `len f1` entries of `f2`,
as the loop bound is the receiver's length. -/
def cosineF (f1 f2 : List F) : F :=
  let r := fsub (F.fin 1)
    (fdiv (dotF f1 f2) (fsqrt (fmul (sumSq f1) (sumSq (f2.take f1.length)))))
  if r.isNan then F.fin 1 else r

/-- `Bow.Euclid` (bow.go): square root of the summed squared differences
`(f2[i] - f1[i])^2` over the receiver's length. -/
def euclidF (f1 f2 : List F) : F :=
  fsqrt (sumF (List.zipWith (fun a b => sqF (fsub b a)) f1 f2))

/-- The spec's cosine formula, written with the product of the two
magnitudes `1 - dot(a,b)/(mag a * mag b)` (the code computes
`sqrt(mag1*mag2)` instead), with the same NaN guard. -/
def cosineSpec (f1 f2 : List F) : F :=
  let r := fsub (F.fin 1)
    (fdiv (dotF f1 f2) (fmul (magnitudeF f1) (magnitudeF f2)))
  if r.isNan then F.fin 1 else r

/-- The model's `fsqrt` is exact at this value: trivially for the special
values, and on `fin q` when `q` is the square of a rational. -/
def ExactSqrt : F → Prop
  | .fin q => Rat.sqrt q * Rat.sqrt q = q
  | _ => True

instance : DecidablePred ExactSqrt := by
  intro x
  cases x <;> simp only [ExactSqrt] <;> infer_instance

/-! ## Bit-level record codec (db.go) -/

/-- Big-endian byte decoding, `binary.BigEndian.UintNN`. -/
def beN (l : List Nat) : Nat := l.foldl (fun a b => a * 256 + b) 0

/-- The two big-endian bytes of `uint16(i)` (binary.Write of a uint16). -/
def u16be (i : Nat) : List Nat := [i / 256 % 256, i % 256]

/-- The four big-endian bytes of `uint32(n)` (binary.Write of a uint32;
the cast truncates modulo 2^32, which the per-byte `% 256` realizes). -/
def u32be (n : Nat) : List Nat :=
  [n / 16777216 % 256, n / 65536 % 256, n / 256 % 256, n % 256]

/-- The Go test `f > 0` on a float32, expressed on its bit pattern:
true exactly for the patterns from `0x00000001` (smallest positive
subnormal) up to `0x7F800000` (`+inf`); false for `±0`, all negative
patterns, and all NaN patterns (`> 0x7F800000` up to sign bit, and all
sign-bit-set patterns compare false or are ≤ 0). -/
def posBits (b : Nat) : Bool := 0 < b && b ≤ 2139095040

/-- A database record at wire level: id bytes, payload bytes, and the
frequency vector as float32 bit patterns. -/
structure EntryB where
  id : List Nat
  data : List Nat
  freqs : List Nat
deriving DecidableEq, Repr

/-- The sparse frequency encoding loop of `DB.write`: for each index `i`
(from `start`) whose frequency passes `f > 0`, emit the 2-byte big-endian
index and the 4-byte big-endian float bits. -/
def spEnc : Nat → List Nat → List Nat
  | _, [] => []
  | i, f :: rest => (if posBits f then u16be i ++ u32be f else []) ++ spEnc (i + 1) rest

/-- `DB.writeItem`: the 4-byte big-endian length prefix followed by the
item's bytes. -/
def encItem (b : List Nat) : List Nat := u32be b.length ++ b

/-- `DB.write`: three length-prefixed items per record, in the order
id, payload, sparse frequency pairs.  The source loops `i < libSize`
indexing `Freqs[i]`; under the database invariant
`len(Freqs) = libSize` this is the same as walking the vector. -/
def writeEntry (e : EntryB) : List Nat :=
  encItem e.id ++ (encItem e.data ++ encItem (spEnc 0 e.freqs))

/-- The read-side byte source: the remaining bytes of the record stream,
plus whether the underlying reader ends in an I/O error (`tailErr = true`)
or in a clean `io.EOF` (`tailErr = false`). -/
structure ByteSrc where
  bytes : List Nat
  tailErr : Bool
deriving DecidableEq, Repr

/-- Outcomes of the read path that are not a decoded value:
`eof` is the `io.EOF` sentinel; `readFail` is the wrapped hard error of
`DB.readNBytes` (`Error reading item: ...` / `Expected item with length`);
`panicIdx` and `panicChunk` model the Go runtime panics of `DB.read` on a
sparse index out of range and on a bow item whose length is not a
multiple of 6. -/
inductive RErr
  | eof
  | readFail
  | panicIdx
  | panicChunk
deriving DecidableEq, Repr

/-- `DB.readNBytes`: reads exactly `n` bytes.  The loop reads whatever is
available; if the source runs out first it returns `io.EOF` when the
underlying reader ends cleanly, and the hard read error when the
underlying reader fails.  (The `Expected item with length` branch fires
only on a zero-byte read with nil error, which a conforming `io.Reader`
does not produce mid-stream; it is absorbed into `readFail`.) -/
def readNBytes (n : Nat) (s : ByteSrc) : Except RErr (List Nat × ByteSrc) :=
  if n ≤ s.bytes.length then .ok (s.bytes.take n, ⟨s.bytes.drop n, s.tailErr⟩)
  else if s.tailErr then .error .readFail else .error .eof

/-- `DB.readItem`: a 4-byte big-endian length prefix followed by that many
payload bytes. -/
def readItemB (s : ByteSrc) : Except RErr (List Nat × ByteSrc) :=
  match readNBytes 4 s with
  | .error e => .error e
  | .ok (pre, s1) => readNBytes (beN pre) s1

/-- The sparse-pair decode loop of `DB.read`: advance 6 bytes at a time,
2 bytes of big-endian fragment index and 4 bytes of float bits, writing
into the frequency slice.  An index at or beyond the slice length is a
runtime panic in Go (`panicIdx`); a trailing chunk shorter than 6 bytes
is modelled as `panicChunk` (in Go this panics or reads stale buffer
bytes depending on the reused buffer's capacity; no theorem below
depends on this case). -/
def decFreqsGo : List Nat → List Nat → Except RErr (List Nat)
  | [], freqs => .ok freqs
  | b0 :: b1 :: b2 :: b3 :: b4 :: b5 :: rest, freqs =>
      let i := b0 * 256 + b1
      if i < freqs.length then decFreqsGo rest (freqs.set i (beN [b2, b3, b4, b5]))
      else .error .panicIdx
  | _, _ => .error .panicChunk

/-- Decoding a bow item into a fresh zeroed vector of the library size
(`DB.newBow` hands out a zero-initialized slice of length `Lib.Size()`;
slab regions are used at most once, so they are always all-zero). -/
def decodeFreqs (libSize : Nat) (b : List Nat) : Except RErr (List Nat) :=
  decFreqsGo b (List.replicate libSize 0)

/-- The fragment indices named by the 6-byte chunks of a bow item. -/
def chunkIdxs : List Nat → List Nat
  | b0 :: b1 :: _ :: _ :: _ :: _ :: rest => (b0 * 256 + b1) :: chunkIdxs rest
  | _ => []

/-- `DB.read`: read the three items (id, payload, bow) and decode the
sparse frequency pairs into a zeroed vector of the library size. -/
def readEntry (libSize : Nat) (s : ByteSrc) : Except RErr (EntryB × ByteSrc) :=
  match readItemB s with
  | .error e => .error e
  | .ok (idB, s1) =>
    match readItemB s1 with
    | .error e => .error e
    | .ok (dataB, s2) =>
      match readItemB s2 with
      | .error e => .error e
      | .ok (bowB, s3) =>
        match decodeFreqs libSize bowB with
        | .error e => .error e
        | .ok freqs => .ok (⟨idB, dataB, freqs⟩, s3)

/-! ## DB read state and ReadAll (db.go) -/

/-- The read-mode database handle state: the memoized entry cache
(`nil`/`none` until `ReadAll` has run, then always `some`) and the
position of the buffered record-stream reader. -/
structure DBState where
  entries : Option (List EntryB)
  src : ByteSrc
deriving DecidableEq, Repr

/-- The `ReadAll` decode loop, with explicit fuel so that the definition is
structurally recursive (and hence evaluates by `rfl`/`decide`).  Each
successful `DB.read` consumes at least 12 bytes, so fuel
`s.bytes.length + 1` never runs out; the fuel-exhaustion branch returns a
`readFail` that `loadLoopFuel_ge` below proves unreachable.  On `io.EOF`
the loop breaks cleanly with the entries decoded so far; on any other
error it stops and reports it, still keeping the entries decoded so far. -/
def loadLoopF : Nat → Nat → ByteSrc → List EntryB → List EntryB × ByteSrc × Option RErr
  | 0, _, s, acc => (acc, s, some .readFail)
  | fuel + 1, libSize, s, acc =>
    match readEntry libSize s with
    | .ok (e, s') => loadLoopF fuel libSize s' (acc ++ [e])
    | .error .eof => (acc, s, none)
    | .error err => (acc, s, some err)

/-- The `ReadAll` decode loop at its (always sufficient) fuel. -/
def loadLoop (libSize : Nat) (s : ByteSrc) (acc : List EntryB) :
    List EntryB × ByteSrc × Option RErr :=
  loadLoopF (s.bytes.length + 1) libSize s acc

/-- The list of records decoded from the stream before the first failure
(all of them, when the stream ends cleanly). -/
def loadedRecs (libSize : Nat) (s : ByteSrc) : List EntryB :=
  (loadLoop libSize s []).1

/-- `DB.ReadAll`: return the cached entries when present; otherwise run
the decode loop.  The cache field is assigned (non-nil) before the loop
starts and keeps the partial list if the loop fails, so a failed load
still populates the cache. -/
def readAll (libSize : Nat) (db : DBState) : DBState × Except RErr (List EntryB) :=
  match db.entries with
  | some l => (db, .ok l)
  | none =>
    match loadLoop libSize db.src [] with
    | (acc, s', none) => (⟨some acc, s'⟩, .ok acc)
    | (acc, s', some e) => (⟨some acc, s'⟩, .error e)

/-! ## Search engine (search.go) -/

/-- `SortByEuclid` constant (iota 0). -/
def SortByEuclid : Int := 0

/-- `SortByCosine` constant (iota 1). -/
def SortByCosine : Int := 1

/-- `OrderAsc` constant (iota 0). -/
def OrderAsc : Int := 0

/-- `OrderDesc` constant (iota 1). -/
def OrderDesc : Int := 1

/-- A record at value level: id and payload bytes plus the frequency
vector as float values (`bow.Bowed`). -/
structure EntryV where
  id : List Nat
  data : List Nat
  freqs : List F
deriving DecidableEq, Repr

/-- Decoding a float32 bit pattern to its exact value:
sign, 8-bit exponent, 23-bit mantissa; exponent 255 gives the special
values, exponent 0 the subnormals `m * 2^-149`, and otherwise
`(2^23 + m) * 2^(e-150)`.  Both zero patterns map to `fin 0`. -/
def bitsToF (b : Nat) : F :=
  let sgn := b / 2147483648 % 2
  let e := b / 8388608 % 256
  let m := b % 8388608
  if e = 255 then (if m ≠ 0 then F.nan else if sgn = 1 then F.ninf else F.pinf)
  else
    let mag : ℚ :=
      if e = 0 then (m : ℚ) / 2 ^ 149
      else ((8388608 + m : ℕ) : ℚ) * ((2 ^ e : ℕ) : ℚ) / 2 ^ 150
    F.fin (if sgn = 1 then -mag else mag)

/-- A wire-level record seen at value level (the entries `Search` loops
over after the implicit `ReadAll`). -/
def toEntryV (e : EntryB) : EntryV := ⟨e.id, e.data, e.freqs.map bitsToF⟩

/-- `SearchOptions` (search.go). -/
structure SOpts where
  limit : Int
  min : F
  max : F
  sortBy : Int
  order : Int
deriving DecidableEq, Repr

/-- A node of the bounded order-statistic tree: the entry and its
distance to the query. -/
structure SNode where
  ent : EntryV
  dist : F
deriving DecidableEq, Repr

/-- `SearchResult` (search.go): the entry plus both recomputed distances. -/
structure SResult where
  ent : EntryV
  cosine : F
  euclid : F
deriving DecidableEq, Repr

/-- The `panic` exits of `DB.Search`: the `Unrecognized SortBy value`
panic, the nil-pointer dereference of `tree.max`/`tree.min` on an empty
tree, and the `Tree size is bigger than limit` sanity panic. -/
inductive SPanic
  | badSortBy
  | nilNode
  | sanity
deriving DecidableEq, Repr

/-- `newSearchResult` (search.go): recomputes both metrics against the
query. -/
def mkResult (q e : EntryV) : SResult :=
  ⟨e, cosineF q.freqs e.freqs, euclidF q.freqs e.freqs⟩

/-- The `switch opts.SortBy` dispatch of `DB.Search`; an unrecognized
value panics. -/
def distOf (opts : SOpts) (q e : EntryV) : Except SPanic F :=
  if opts.sortBy = SortByCosine then .ok (cosineF q.freqs e.freqs)
  else if opts.sortBy = SortByEuclid then .ok (euclidF q.freqs e.freqs)
  else .error .badSortBy

/-- Modelled from the spec: `bst.insert` of the missing bst source file.
The spec's bounded ordered multiset keyed by distance is modelled as a
list sorted by distance; insertion places the new node before the first
strictly greater element (under the IEEE `<`, so after all equal keys,
giving the stable tie order of a BST that sends equal keys right). -/
def insertNode (x : SNode) : List SNode → List SNode
  | [] => [x]
  | y :: ys => if flt x.dist y.dist then x :: y :: ys else y :: insertNode x ys

/-- The limit-reached skip test of `DB.Search`: when the tree is at the
limit, compare against the worst kept element, dereferencing the live
`max` (ascending) or `min` (descending) pointer — which is nil, hence a
panic, on an empty tree. -/
def limitSkip (opts : SOpts) (dist : F) (tree : List SNode) : Except SPanic Bool :=
  if (tree.length : Int) = opts.limit then
    if opts.order = OrderAsc then
      match tree.getLast? with
      | none => .error .nilNode
      | some m => .ok (fge dist m.dist)
    else if opts.order = OrderDesc then
      match tree.head? with
      | none => .error .nilNode
      | some m => .ok (fle dist m.dist)
    else .ok false
  else .ok false

/-- The evict-worst step of `DB.Search`: when there is a limit and the
insertion has pushed the tree one past it, delete the current worst
element (the max under ascending order, the min otherwise). -/
def evictWorst (opts : SOpts) (t1 : List SNode) : List SNode :=
  if 0 ≤ opts.limit ∧ (t1.length : Int) = opts.limit + 1 then
    (if opts.order = OrderAsc then t1.dropLast else t1.tail)
  else t1

/-- The sanity check of `DB.Search`: panic when there is a limit and the
tree is still bigger than it. -/
def sanityCheck (opts : SOpts) (t2 : List SNode) : Except SPanic (List SNode) :=
  if 0 ≤ opts.limit ∧ opts.limit < (t2.length : Int) then .error .sanity else .ok t2

/-- One iteration of the scan loop of `DB.Search` for a candidate at the
given distance: threshold filter, limit skip, insert, evict-worst, and
the sanity check. -/
def stepTree (opts : SOpts) (e : EntryV) (dist : F) (tree : List SNode) :
    Except SPanic (List SNode) :=
  if fgt dist opts.max || flt dist opts.min then .ok tree
  else
    match limitSkip opts dist tree with
    | .error p => .error p
    | .ok true => .ok tree
    | .ok false => sanityCheck opts (evictWorst opts (insertNode ⟨e, dist⟩ tree))

/-- The scan loop of `DB.Search` over the entry list. -/
def searchLoop (opts : SOpts) (q : EntryV) :
    List EntryV → List SNode → Except SPanic (List SNode)
  | [], tree => .ok tree
  | e :: rest, tree =>
    match distOf opts q e with
    | .error p => .error p
    | .ok dist =>
      match stepTree opts e dist tree with
      | .error p => .error p
      | .ok tree' => searchLoop opts q rest tree'

/-- `DB.Search` on an already loaded entry list: scan, then emit the tree
in order (ascending) or in reverse order (any other `Order` value),
rebuilding each result with both metrics. -/
def searchCore (opts : SOpts) (q : EntryV) (entries : List EntryV) :
    Except SPanic (List SResult) :=
  match searchLoop opts q entries [] with
  | .error p => .error p
  | .ok tree =>
    .ok ((if opts.order = OrderAsc then tree else tree.reverse).map
      (fun n => mkResult q n.ent))

/-- `DB.Search` on a read-mode database handle: if the cache is nil the
implicit `ReadAll` runs first — its error is discarded — and the scan then
walks whatever `db.entries` holds. -/
def searchDB (libSize : Nat) (db : DBState) (opts : SOpts) (q : EntryV) :
    DBState × Except SPanic (List SResult) :=
  let db1 := match db.entries with
    | none => (readAll libSize db).1
    | some _ => db
  (db1, searchCore opts q ((db1.entries.getD []).map toEntryV))

/-- The distance of a result under the metric selected by `SortBy`
(cosine when `SortByCosine`, otherwise the euclidean one). -/
def resDist (opts : SOpts) (r : SResult) : F :=
  if opts.sortBy = SortByCosine then r.cosine else r.euclid

/-! ## Order lemmas for the float model -/

theorem flt_asymm {a b : F} (h : flt a b = true) : flt b a = false := by
  cases a <;> cases b <;> simp_all [flt, not_lt, le_of_lt]

theorem fle_of_not_flt {a b : F} (h : flt b a = false) (ha : a.isNan = false)
    (hb : b.isNan = false) : fle a b = true := by
  cases a <;> cases b <;> simp_all [flt, fle, F.isNan, not_lt]

/-! ## Tree invariants for the search engine -/

/-- Adjacent-pair relation maintained by the ordered multiset: the right
element is never strictly below the left one under the IEEE `<`. -/
def nleDist (a b : SNode) : Prop := flt b.dist a.dist = false

theorem insertNode_mem {x z : SNode} :
    ∀ {l : List SNode}, z ∈ insertNode x l → z = x ∨ z ∈ l := by
  intro l
  induction l with
  | nil => intro h; simpa [insertNode] using h
  | cons y ys ih =>
    intro h
    simp only [insertNode] at h
    by_cases hxy : flt x.dist y.dist = true
    · rw [if_pos hxy] at h
      rcases List.mem_cons.mp h with h | h
      · exact Or.inl h
      · exact Or.inr h
    · rw [if_neg hxy] at h
      rcases List.mem_cons.mp h with h | h
      · exact Or.inr (List.mem_cons.mpr (Or.inl h))
      · rcases ih h with h | h
        · exact Or.inl h
        · exact Or.inr (List.mem_cons.mpr (Or.inr h))

theorem insertNode_length (x : SNode) :
    ∀ l : List SNode, (insertNode x l).length = l.length + 1 := by
  intro l
  induction l with
  | nil => rfl
  | cons y ys ih =>
    by_cases hxy : flt x.dist y.dist = true <;>
      simp [insertNode, hxy, ih]

theorem chain'_insertNode (x : SNode) :
    ∀ {l : List SNode}, List.Chain' nleDist l → List.Chain' nleDist (insertNode x l) := by
  intro l
  induction l with
  | nil => intro _; simp [insertNode]
  | cons y ys ih =>
    intro h
    have hxy' : ∀ hh : ¬flt x.dist y.dist = true, flt x.dist y.dist = false := by
      intro hh; simpa using hh
    by_cases hxy : flt x.dist y.dist = true
    · simp only [insertNode, if_pos hxy]
      exact List.chain'_cons.mpr ⟨flt_asymm hxy, h⟩
    · simp only [insertNode, if_neg hxy]
      have hys : List.Chain' nleDist ys := (List.chain'_cons'.mp h).2
      refine List.chain'_cons'.mpr ⟨?_, ih hys⟩
      intro z hz
      cases ys with
      | nil =>
        simp only [insertNode, List.head?_cons, Option.mem_def, Option.some.injEq] at hz
        subst hz
        exact hxy' hxy
      | cons z0 zs =>
        by_cases h0 : flt x.dist z0.dist = true
        · simp only [insertNode, if_pos h0, List.head?_cons, Option.mem_def,
            Option.some.injEq] at hz
          subst hz
          exact hxy' hxy
        · simp only [insertNode, if_neg h0, List.head?_cons, Option.mem_def,
            Option.some.injEq] at hz
          subst hz
          exact (List.chain'_cons.mp h).1

theorem chain'_dropLast {R : SNode → SNode → Prop} :
    ∀ {l : List SNode}, List.Chain' R l → List.Chain' R l.dropLast := by
  intro l
  induction l with
  | nil => intro h; simp
  | cons a t ih =>
    intro h
    cases t with
    | nil => simp
    | cons b t' =>
      have hab := (List.chain'_cons.mp h).1
      have hbt := (List.chain'_cons.mp h).2
      have ih' := ih hbt
      cases t' with
      | nil => simp
      | cons c t'' =>
        simp only [List.dropLast_cons₂] at ih' ⊢
        exact List.chain'_cons.mpr ⟨hab, ih'⟩

theorem distOf_ok (opts : SOpts) (q e : EntryV)
    (hs : opts.sortBy = SortByCosine ∨ opts.sortBy = SortByEuclid) :
    ∃ d, distOf opts q e = .ok d := by
  rcases hs with hs | hs
  · exact ⟨cosineF q.freqs e.freqs, by rw [distOf, if_pos hs]⟩
  · refine ⟨euclidF q.freqs e.freqs, ?_⟩
    rw [distOf, if_neg (by rw [hs]; decide), if_pos hs]

theorem limitSkip_ok (opts : SOpts) (dist : F) (tree : List SNode)
    (h : (tree.length : Int) = opts.limit → tree ≠ []) :
    ∃ b, limitSkip opts dist tree = .ok b := by
  rw [limitSkip]
  by_cases heq : (tree.length : Int) = opts.limit
  · rw [if_pos heq]
    have hne := h heq
    by_cases hord : opts.order = OrderAsc
    · rw [if_pos hord]
      cases hg : tree.getLast? with
      | none => exact absurd (List.getLast?_eq_none_iff.mp hg) hne
      | some m => exact ⟨_, rfl⟩
    · rw [if_neg hord]
      by_cases hord2 : opts.order = OrderDesc
      · rw [if_pos hord2]
        cases hg : tree.head? with
        | none => exact absurd (List.head?_eq_none_iff.mp hg) hne
        | some m => exact ⟨_, rfl⟩
      · rw [if_neg hord2]; exact ⟨false, rfl⟩
  · rw [if_neg heq]; exact ⟨false, rfl⟩

theorem evictWorst_length (opts : SOpts) (t1 : List SNode) (hl : 1 ≤ opts.limit)
    (h : (t1.length : Int) ≤ opts.limit + 1) :
    ((evictWorst opts t1).length : Int) ≤ opts.limit := by
  rw [evictWorst]
  by_cases hc : 0 ≤ opts.limit ∧ (t1.length : Int) = opts.limit + 1
  · rw [if_pos hc]
    by_cases hord : opts.order = OrderAsc
    · rw [if_pos hord, List.length_dropLast]
      omega
    · rw [if_neg hord, List.length_tail]
      omega
  · rw [if_neg hc]
    omega

theorem sanityCheck_ok (opts : SOpts) (t2 : List SNode)
    (h : (t2.length : Int) ≤ opts.limit) : sanityCheck opts t2 = .ok t2 := by
  rw [sanityCheck, if_neg (by omega)]

theorem stepTree_ok (opts : SOpts) (e : EntryV) (dist : F) (tree : List SNode)
    (hl : 1 ≤ opts.limit) (hlen : (tree.length : Int) ≤ opts.limit) :
    ∃ out, stepTree opts e dist tree = .ok out ∧ (out.length : Int) ≤ opts.limit := by
  rw [stepTree]
  by_cases hth : (fgt dist opts.max || flt dist opts.min) = true
  · exact ⟨tree, by rw [if_pos hth], hlen⟩
  rw [if_neg hth]
  have hne : (tree.length : Int) = opts.limit → tree ≠ [] := by
    intro heq h0
    rw [h0] at heq
    simp only [List.length_nil, Nat.cast_zero] at heq
    omega
  obtain ⟨b, hb⟩ := limitSkip_ok opts dist tree hne
  rw [hb]
  cases b
  · have hins : (insertNode ⟨e, dist⟩ tree).length = tree.length + 1 :=
      insertNode_length _ _
    have hlen1 : ((insertNode ⟨e, dist⟩ tree).length : Int) ≤ opts.limit + 1 := by
      rw [hins]; push_cast; omega
    have hev := evictWorst_length opts (insertNode ⟨e, dist⟩ tree) hl hlen1
    exact ⟨_, sanityCheck_ok opts _ hev, hev⟩
  · exact ⟨tree, rfl, hlen⟩

theorem searchLoop_ok (opts : SOpts) (q : EntryV) (hl : 1 ≤ opts.limit)
    (hs : opts.sortBy = SortByCosine ∨ opts.sortBy = SortByEuclid) :
    ∀ (es : List EntryV) (tree : List SNode), (tree.length : Int) ≤ opts.limit →
    ∃ out, searchLoop opts q es tree = .ok out ∧ (out.length : Int) ≤ opts.limit := by
  intro es
  induction es with
  | nil => intro tree hlen; exact ⟨tree, rfl, hlen⟩
  | cons e rest ih =>
    intro tree hlen
    obtain ⟨d, hd⟩ := distOf_ok opts q e hs
    obtain ⟨mid, hmid, hmlen⟩ := stepTree_ok opts e d tree hl hlen
    obtain ⟨out, hout, holen⟩ := ih mid hmlen
    refine ⟨out, ?_, holen⟩
    simp only [searchLoop, hd, hmid, hout]

/-- C3 (amended): with a recognized `SortBy` and `Limit ≥ 1`, `Search`
returns normally and the result list never exceeds `Limit`.  (As stated
the claim fails at `Limit = 0`: see the counterexample below.) -/
theorem search_limit_bound (entries : List EntryV) (q : EntryV) (opts : SOpts)
    (hl : 1 ≤ opts.limit)
    (hs : opts.sortBy = SortByCosine ∨ opts.sortBy = SortByEuclid) :
    ∃ res, searchCore opts q entries = .ok res ∧ (res.length : Int) ≤ opts.limit := by
  obtain ⟨out, hout, holen⟩ := searchLoop_ok opts q hl hs entries [] (by simp; omega)
  refine ⟨(if opts.order = OrderAsc then out else out.reverse).map
    (fun n => mkResult q n.ent), ?_, ?_⟩
  · simp only [searchCore, hout]
  · rw [List.length_map]
    by_cases hord : opts.order = OrderAsc
    · rw [if_pos hord]; exact holen
    · rw [if_neg hord, List.length_reverse]; exact holen

/-- The invariant of a node held in the tree: its distance is the metric
distance of its entry to the query, and that distance passed the
threshold filter. -/
def nodeOk (opts : SOpts) (q : EntryV) (n : SNode) : Prop :=
  n.dist = (if opts.sortBy = SortByCosine then cosineF q.freqs n.ent.freqs
    else euclidF q.freqs n.ent.freqs)
  ∧ fgt n.dist opts.max = false ∧ flt n.dist opts.min = false

/-- The scan-loop invariant: all nodes satisfy `nodeOk` and the list is
ordered (no adjacent pair strictly out of order). -/
def treeInv (opts : SOpts) (q : EntryV) (tree : List SNode) : Prop :=
  (∀ n ∈ tree, nodeOk opts q n) ∧ List.Chain' nleDist tree

theorem chain'_mono_mem {α : Type} {R S : α → α → Prop} :
    ∀ l : List α, (∀ a ∈ l, ∀ b ∈ l, R a b → S a b) → List.Chain' R l → List.Chain' S l := by
  intro l
  induction l with
  | nil => intro _ _; simp
  | cons a t ih =>
    intro hmem hch
    rcases List.chain'_cons'.mp hch with ⟨hhead, htail⟩
    refine List.chain'_cons'.mpr ⟨?_, ?_⟩
    · intro b hb
      have hbt : b ∈ t := by
        cases t with
        | nil => simp at hb
        | cons c t' =>
          simp only [List.head?_cons, Option.mem_def, Option.some.injEq] at hb
          simp [hb]
      exact hmem a (by simp) b (by simp [hbt]) (hhead b hb)
    · exact ih (fun x hx y hy => hmem x (by simp [hx]) y (by simp [hy])) htail

theorem stepTree_inv (opts : SOpts) (q e : EntryV) (dist : F) (tree out : List SNode)
    (hd : distOf opts q e = .ok dist)
    (h : stepTree opts e dist tree = .ok out)
    (hinv : treeInv opts q tree) : treeInv opts q out := by
  rw [stepTree] at h
  by_cases hth : (fgt dist opts.max || flt dist opts.min) = true
  · rw [if_pos hth] at h
    cases h
    exact hinv
  rw [if_neg hth] at h
  have hth2 : fgt dist opts.max = false ∧ flt dist opts.min = false := by
    constructor <;> [skip; skip] <;>
      simp only [Bool.or_eq_true, not_or, Bool.not_eq_true] at hth <;>
      [exact hth.1; exact hth.2]
  have hx : nodeOk opts q ⟨e, dist⟩ := by
    refine ⟨?_, hth2.1, hth2.2⟩
    rw [distOf] at hd
    by_cases hs : opts.sortBy = SortByCosine
    · rw [if_pos hs] at hd
      cases hd
      rw [if_pos hs]
    · rw [if_neg hs] at hd
      by_cases hs2 : opts.sortBy = SortByEuclid
      · rw [if_pos hs2] at hd
        cases hd
        rw [if_neg hs]
      · rw [if_neg hs2] at hd
        cases hd
  cases hb : limitSkip opts dist tree with
  | error p => rw [hb] at h; cases h
  | ok b =>
    rw [hb] at h
    cases b
    · have hout : out = evictWorst opts (insertNode ⟨e, dist⟩ tree) := by
        rw [sanityCheck] at h
        by_cases hc : 0 ≤ opts.limit ∧
            opts.limit < ((evictWorst opts (insertNode ⟨e, dist⟩ tree)).length : Int)
        · rw [if_pos hc] at h; cases h
        · rw [if_neg hc] at h; cases h; rfl
      have hins : treeInv opts q (insertNode ⟨e, dist⟩ tree) := by
        constructor
        · intro n hn
          rcases insertNode_mem hn with hn | hn
          · rw [hn]; exact hx
          · exact hinv.1 n hn
        · exact chain'_insertNode _ hinv.2
      rw [hout, evictWorst]
      by_cases hc : 0 ≤ opts.limit ∧
          ((insertNode ⟨e, dist⟩ tree).length : Int) = opts.limit + 1
      · rw [if_pos hc]
        by_cases hord : opts.order = OrderAsc
        · rw [if_pos hord]
          exact ⟨fun n hn => hins.1 n ((List.dropLast_sublist _).subset hn),
            chain'_dropLast hins.2⟩
        · rw [if_neg hord]
          exact ⟨fun n hn => hins.1 n ((List.tail_sublist _).subset hn),
            hins.2.tail⟩
      · rw [if_neg hc]
        exact hins
    · cases h
      exact hinv

theorem searchLoop_inv (opts : SOpts) (q : EntryV) :
    ∀ (es : List EntryV) (tree out : List SNode),
    searchLoop opts q es tree = .ok out → treeInv opts q tree → treeInv opts q out := by
  intro es
  induction es with
  | nil =>
    intro tree out h hinv
    cases h
    exact hinv
  | cons e rest ih =>
    intro tree out h hinv
    cases hd : distOf opts q e with
    | error p => rw [searchLoop, hd] at h; cases h
    | ok d =>
      cases hm : stepTree opts e d tree with
      | error p => simp only [searchLoop, hd, hm] at h; cases h
      | ok mid =>
        simp only [searchLoop, hd, hm] at h
        exact ih mid out h (stepTree_inv opts q e d tree mid hd hm hinv)

theorem resDist_mkResult (opts : SOpts) (q : EntryV) (n : SNode)
    (h : nodeOk opts q n) : resDist opts (mkResult q n.ent) = n.dist := by
  rcases h with ⟨h1, _, _⟩
  rw [resDist, h1]
  by_cases hs : opts.sortBy = SortByCosine
  · rw [if_pos hs, if_pos hs]; rfl
  · rw [if_neg hs, if_neg hs]; rfl

theorem chain'_map_resDist (opts : SOpts) (q : EntryV) (Rd : F → F → Prop) :
    ∀ l : List SNode, (∀ n ∈ l, nodeOk opts q n) →
    List.Chain' (fun a b => Rd a.dist b.dist) l →
    List.Chain' (fun a b : SResult => Rd (resDist opts a) (resDist opts b))
      (l.map (fun n => mkResult q n.ent)) := by
  intro l hmem hch
  rw [List.chain'_map]
  refine chain'_mono_mem l ?_ hch
  intro a ha b hb hr
  rw [resDist_mkResult opts q a (hmem a ha), resDist_mkResult opts q b (hmem b hb)]
  exact hr

theorem searchCore_ok_elim (opts : SOpts) (q : EntryV) (entries : List EntryV)
    (res : List SResult) (h : searchCore opts q entries = .ok res) :
    ∃ tree, searchLoop opts q entries [] = .ok tree ∧ treeInv opts q tree ∧
      res = (if opts.order = OrderAsc then tree else tree.reverse).map
        (fun n => mkResult q n.ent) := by
  rw [searchCore] at h
  cases hloop : searchLoop opts q entries [] with
  | error p => rw [hloop] at h; cases h
  | ok tree =>
    rw [hloop] at h
    cases h
    exact ⟨tree, rfl,
      searchLoop_inv opts q entries [] tree hloop
        ⟨fun n hn => absurd hn (List.not_mem_nil n), List.chain'_nil⟩, rfl⟩

/-- C4 (amended): the result list of `Search` is weakly ordered under the
IEEE comparisons — ascending order never has an adjacent pair with
`result[i+1] < result[i]` under the selected metric, descending order
never has `result[i] < result[i+1]`, and whenever none of the returned
distances is NaN this gives the claim's `result[i] ≤ result[i+1]`
(respectively the reverse inequality).  As stated the claim fails when a
NaN distance is returned: see the counterexample below. -/
theorem search_order_monotone (entries : List EntryV) (q : EntryV) (opts : SOpts)
    (res : List SResult) (h : searchCore opts q entries = .ok res) :
    (opts.order = OrderAsc →
      List.Chain' (fun a b => flt (resDist opts b) (resDist opts a) = false) res
      ∧ ((∀ r ∈ res, (resDist opts r).isNan = false) →
        List.Chain' (fun a b => fle (resDist opts a) (resDist opts b) = true) res))
    ∧ (opts.order = OrderDesc →
      List.Chain' (fun a b => flt (resDist opts a) (resDist opts b) = false) res
      ∧ ((∀ r ∈ res, (resDist opts r).isNan = false) →
        List.Chain' (fun a b => fle (resDist opts b) (resDist opts a) = true) res)) := by
  obtain ⟨tree, hloop, hinv, hres⟩ := searchCore_ok_elim opts q entries res h
  constructor
  · intro hord
    rw [hord] at hres
    rw [if_pos rfl] at hres
    have hbase : List.Chain' (fun a b : SResult =>
        flt (resDist opts b) (resDist opts a) = false) res := by
      rw [hres]
      exact chain'_map_resDist opts q (fun x y => flt y x = false) tree hinv.1 hinv.2
    refine ⟨hbase, ?_⟩
    intro hnan
    refine chain'_mono_mem res ?_ hbase
    intro a ha b hb hr
    exact fle_of_not_flt hr (hnan a ha) (hnan b hb)
  · intro hord
    rw [hord] at hres
    rw [if_neg (by decide)] at hres
    have hbase : List.Chain' (fun a b : SResult =>
        flt (resDist opts a) (resDist opts b) = false) res := by
      rw [hres]
      refine chain'_map_resDist opts q (fun x y => flt x y = false) tree.reverse ?_ ?_
      · intro n hn
        exact hinv.1 n (List.mem_reverse.mp hn)
      · exact List.chain'_reverse.mpr hinv.2
    refine ⟨hbase, ?_⟩
    intro hnan
    refine chain'_mono_mem res ?_ hbase
    intro a ha b hb hr
    exact fle_of_not_flt hr (hnan b hb) (hnan a ha)

/-- C5 (amended): every returned result's distance under the selected
metric is never strictly above `Max` nor strictly below `Min` under the
IEEE comparisons; whenever the distance (and the bounds) are not NaN this
gives the claim's `Min ≤ distance ≤ Max`.  As stated the claim fails for
NaN distances, which pass the filter: see the counterexample below. -/
theorem search_threshold (entries : List EntryV) (q : EntryV) (opts : SOpts)
    (res : List SResult) (h : searchCore opts q entries = .ok res) :
    ∀ r ∈ res, fgt (resDist opts r) opts.max = false
      ∧ flt (resDist opts r) opts.min = false
      ∧ ((resDist opts r).isNan = false → opts.min.isNan = false →
          opts.max.isNan = false →
          fle opts.min (resDist opts r) = true
          ∧ fle (resDist opts r) opts.max = true) := by
  obtain ⟨tree, hloop, hinv, hres⟩ := searchCore_ok_elim opts q entries res h
  intro r hr
  rw [hres] at hr
  obtain ⟨n, hn, hrn⟩ := List.mem_map.mp hr
  have hnode : nodeOk opts q n := by
    by_cases hord : opts.order = OrderAsc
    · rw [if_pos hord] at hn
      exact hinv.1 n hn
    · rw [if_neg hord] at hn
      exact hinv.1 n (List.mem_reverse.mp hn)
  have hdist : resDist opts r = n.dist := by
    rw [← hrn]
    exact resDist_mkResult opts q n hnode
  rw [hdist]
  refine ⟨hnode.2.1, hnode.2.2, ?_⟩
  intro hdn hmn hxn
  constructor
  · exact fle_of_not_flt hnode.2.2 hmn hdn
  · exact fle_of_not_flt (show flt opts.max n.dist = false from hnode.2.1) hdn hxn

/-- C3 counterexample: with `Limit = 0` (which the claim includes) and a
single entry passing the threshold filter, `Search` dereferences the
empty tree's `max` pointer and panics instead of returning an empty
result list. -/
theorem search_limit_zero_panics :
    searchCore ⟨0, F.fin 0, F.fin 1, SortByEuclid, OrderAsc⟩ ⟨[], [], [F.nan]⟩
      [⟨[], [], [F.fin 0]⟩] = .error SPanic.nilNode := by rfl

/-- C3 witness: the amended bound applied at `Limit = 1` on a concrete
two-entry database. -/
theorem search_limit_bound_witness :
    (1 : Int) ≤ (1 : Int) ∧
    ∃ res, searchCore ⟨1, F.fin 0, F.fin 1, SortByEuclid, OrderAsc⟩ ⟨[], [], [F.nan]⟩
        [⟨[], [], [F.fin 0]⟩, ⟨[], [], [F.fin 1]⟩] = .ok res
      ∧ (res.length : Int) ≤ 1 :=
  ⟨by decide,
    search_limit_bound [⟨[], [], [F.fin 0]⟩, ⟨[], [], [F.fin 1]⟩] ⟨[], [], [F.nan]⟩
      ⟨1, F.fin 0, F.fin 1, SortByEuclid, OrderAsc⟩ (by decide) (Or.inr rfl)⟩

/-- C4 counterexample: a query with a NaN frequency gives NaN euclidean
distances, which pass the threshold filter and are returned; in the
two-element ascending result list the claimed
`result[0].distance ≤ result[1].distance` fails (NaN compares false). -/
theorem search_order_cex :
    searchCore ⟨-1, F.fin 0, F.fin 1, SortByEuclid, OrderAsc⟩ ⟨[], [], [F.nan]⟩
        [⟨[], [], [F.fin 0]⟩, ⟨[], [], [F.fin 1]⟩] =
      .ok [⟨⟨[], [], [F.fin 0]⟩, F.fin 1, F.nan⟩, ⟨⟨[], [], [F.fin 1]⟩, F.fin 1, F.nan⟩]
    ∧ resDist ⟨-1, F.fin 0, F.fin 1, SortByEuclid, OrderAsc⟩
        ⟨⟨[], [], [F.fin 0]⟩, F.fin 1, F.nan⟩ = F.nan
    ∧ fle (resDist ⟨-1, F.fin 0, F.fin 1, SortByEuclid, OrderAsc⟩
          ⟨⟨[], [], [F.fin 0]⟩, F.fin 1, F.nan⟩)
        (resDist ⟨-1, F.fin 0, F.fin 1, SortByEuclid, OrderAsc⟩
          ⟨⟨[], [], [F.fin 1]⟩, F.fin 1, F.nan⟩) = false :=
  ⟨by rfl, by rfl, by rfl⟩

/-- C4 witness: the amended ordering theorem applied to a concrete
ascending two-result search. -/
theorem search_order_monotone_witness :
    List.Chain' (fun a b : SResult =>
        flt (resDist ⟨-1, F.fin 0, F.fin 1, SortByEuclid, OrderAsc⟩ b)
            (resDist ⟨-1, F.fin 0, F.fin 1, SortByEuclid, OrderAsc⟩ a) = false)
      [⟨⟨[], [], [F.fin 0]⟩, F.fin 1, F.nan⟩, ⟨⟨[], [], [F.fin 1]⟩, F.fin 1, F.nan⟩] :=
  ((search_order_monotone [⟨[], [], [F.fin 0]⟩, ⟨[], [], [F.fin 1]⟩] ⟨[], [], [F.nan]⟩
    ⟨-1, F.fin 0, F.fin 1, SortByEuclid, OrderAsc⟩
    [⟨⟨[], [], [F.fin 0]⟩, F.fin 1, F.nan⟩, ⟨⟨[], [], [F.fin 1]⟩, F.fin 1, F.nan⟩]
    (by rfl)).1 rfl).1

/-- C5 counterexample: a NaN distance passes the `dist > Max || dist < Min`
filter, so a result is returned whose distance is not within the closed
interval `[Min, Max]` (here `[0, 1]`). -/
theorem search_threshold_cex :
    searchCore ⟨-1, F.fin 0, F.fin 1, SortByEuclid, OrderAsc⟩ ⟨[], [], [F.nan]⟩
        [⟨[], [], [F.fin 2]⟩] = .ok [⟨⟨[], [], [F.fin 2]⟩, F.fin 1, F.nan⟩]
    ∧ ¬ (fle (F.fin 0)
          (resDist ⟨-1, F.fin 0, F.fin 1, SortByEuclid, OrderAsc⟩
            ⟨⟨[], [], [F.fin 2]⟩, F.fin 1, F.nan⟩) = true
        ∧ fle (resDist ⟨-1, F.fin 0, F.fin 1, SortByEuclid, OrderAsc⟩
            ⟨⟨[], [], [F.fin 2]⟩, F.fin 1, F.nan⟩) (F.fin 1) = true) :=
  ⟨rfl, by decide⟩

/-- C5 witness: the amended threshold theorem applied to a concrete
returned result. -/
theorem search_threshold_witness :
    fgt (resDist ⟨-1, F.fin 0, F.fin 1, SortByEuclid, OrderAsc⟩
        ⟨⟨[], [], [F.fin 2]⟩, F.fin 1, F.nan⟩)
      (⟨-1, F.fin 0, F.fin 1, SortByEuclid, OrderAsc⟩ : SOpts).max = false
    ∧ flt (resDist ⟨-1, F.fin 0, F.fin 1, SortByEuclid, OrderAsc⟩
        ⟨⟨[], [], [F.fin 2]⟩, F.fin 1, F.nan⟩)
      (⟨-1, F.fin 0, F.fin 1, SortByEuclid, OrderAsc⟩ : SOpts).min = false
    ∧ ((resDist ⟨-1, F.fin 0, F.fin 1, SortByEuclid, OrderAsc⟩
          ⟨⟨[], [], [F.fin 2]⟩, F.fin 1, F.nan⟩).isNan = false →
        (⟨-1, F.fin 0, F.fin 1, SortByEuclid, OrderAsc⟩ : SOpts).min.isNan = false →
        (⟨-1, F.fin 0, F.fin 1, SortByEuclid, OrderAsc⟩ : SOpts).max.isNan = false →
        fle (⟨-1, F.fin 0, F.fin 1, SortByEuclid, OrderAsc⟩ : SOpts).min
          (resDist ⟨-1, F.fin 0, F.fin 1, SortByEuclid, OrderAsc⟩
            ⟨⟨[], [], [F.fin 2]⟩, F.fin 1, F.nan⟩) = true
        ∧ fle (resDist ⟨-1, F.fin 0, F.fin 1, SortByEuclid, OrderAsc⟩
            ⟨⟨[], [], [F.fin 2]⟩, F.fin 1, F.nan⟩)
          (⟨-1, F.fin 0, F.fin 1, SortByEuclid, OrderAsc⟩ : SOpts).max = true) :=
  search_threshold [⟨[], [], [F.fin 2]⟩] ⟨[], [], [F.nan]⟩
    ⟨-1, F.fin 0, F.fin 1, SortByEuclid, OrderAsc⟩
    [⟨⟨[], [], [F.fin 2]⟩, F.fin 1, F.nan⟩] (by rfl)
    ⟨⟨[], [], [F.fin 2]⟩, F.fin 1, F.nan⟩ (List.mem_singleton.mpr rfl)

/-! ## ReadAll lemmas -/

theorem readNBytes_ok {n : Nat} {s s' : ByteSrc} {b : List Nat}
    (h : readNBytes n s = .ok (b, s')) :
    s'.bytes.length + n = s.bytes.length ∧ s'.tailErr = s.tailErr := by
  rw [readNBytes] at h
  by_cases hn : n ≤ s.bytes.length
  · rw [if_pos hn] at h
    cases h
    refine ⟨?_, rfl⟩
    simp only [List.length_drop]
    omega
  · rw [if_neg hn] at h
    by_cases ht : s.tailErr = true
    · rw [if_pos ht] at h; cases h
    · rw [if_neg ht] at h; cases h

theorem readNBytes_clean_err {n : Nat} {s : ByteSrc} {e : RErr}
    (ht : s.tailErr = false) (h : readNBytes n s = .error e) : e = .eof := by
  rw [readNBytes] at h
  by_cases hn : n ≤ s.bytes.length
  · rw [if_pos hn] at h; cases h
  · rw [if_neg hn, ht] at h
    simp only [Bool.false_eq_true, if_false] at h
    cases h
    rfl

theorem readItemB_ok {s s' : ByteSrc} {b : List Nat}
    (h : readItemB s = .ok (b, s')) :
    s'.bytes.length + 4 ≤ s.bytes.length ∧ s'.tailErr = s.tailErr := by
  rw [readItemB] at h
  cases h4 : readNBytes 4 s with
  | error e => rw [h4] at h; cases h
  | ok p =>
    obtain ⟨pre, s1⟩ := p
    rw [h4] at h
    obtain ⟨h1len, h1t⟩ := readNBytes_ok h4
    obtain ⟨h2len, h2t⟩ := readNBytes_ok h
    constructor
    · omega
    · rw [h2t, h1t]

theorem readItemB_clean_err {s : ByteSrc} {e : RErr}
    (ht : s.tailErr = false) (h : readItemB s = .error e) : e = .eof := by
  rw [readItemB] at h
  cases h4 : readNBytes 4 s with
  | error e0 =>
    rw [h4] at h
    cases h
    exact readNBytes_clean_err ht h4
  | ok p =>
    obtain ⟨pre, s1⟩ := p
    rw [h4] at h
    exact readNBytes_clean_err ((readNBytes_ok h4).2.trans ht) h

theorem decFreqsGo_err :
    ∀ (b freqs : List Nat) (e : RErr), decFreqsGo b freqs = .error e →
      e = .panicIdx ∨ e = .panicChunk := by
  intro b freqs
  induction b, freqs using decFreqsGo.induct with
  | case1 freqs =>
    intro e h
    cases h
  | case2 b0 b1 b2 b3 b4 b5 rest freqs i hlt ih =>
    intro e h
    simp only [decFreqsGo, hlt, if_true] at h
    exact ih e h
  | case3 b0 b1 b2 b3 b4 b5 rest freqs i hlt =>
    intro e h
    simp only [decFreqsGo, hlt, if_false] at h
    cases h
    exact Or.inl rfl
  | case4 t x h1 h2 =>
    intro e h
    rcases t with _ | ⟨b0, t⟩
    · exact absurd rfl h1
    rcases t with _ | ⟨b1, t⟩
    · injection h with h'
      exact Or.inr h'.symm
    rcases t with _ | ⟨b2, t⟩
    · injection h with h'
      exact Or.inr h'.symm
    rcases t with _ | ⟨b3, t⟩
    · injection h with h'
      exact Or.inr h'.symm
    rcases t with _ | ⟨b4, t⟩
    · injection h with h'
      exact Or.inr h'.symm
    rcases t with _ | ⟨b5, t⟩
    · injection h with h'
      exact Or.inr h'.symm
    · exact absurd rfl (h2 b0 b1 b2 b3 b4 b5 t)

theorem readEntry_ok {libSize : Nat} {s s' : ByteSrc} {e : EntryB}
    (h : readEntry libSize s = .ok (e, s')) :
    s'.bytes.length < s.bytes.length ∧ s'.tailErr = s.tailErr := by
  rw [readEntry] at h
  split at h
  · cases h
  · rename_i idB s1 h1
    split at h
    · cases h
    · rename_i dataB s2 h2
      split at h
      · cases h
      · rename_i bowB s3 h3
        split at h
        · cases h
        · rename_i freqs h4
          cases h
          obtain ⟨l1, t1⟩ := readItemB_ok h1
          obtain ⟨l2, t2⟩ := readItemB_ok h2
          obtain ⟨l3, t3⟩ := readItemB_ok h3
          exact ⟨by omega, by rw [t3, t2, t1]⟩

theorem readEntry_clean_err {libSize : Nat} {s : ByteSrc} {e : RErr}
    (ht : s.tailErr = false) (h : readEntry libSize s = .error e) : e ≠ .readFail := by
  rw [readEntry] at h
  split at h
  · rename_i e0 h1
    cases h
    rw [readItemB_clean_err ht h1]
    decide
  · rename_i idB s1 h1
    have ht1 : s1.tailErr = false := (readItemB_ok h1).2.trans ht
    split at h
    · rename_i e0 h2
      cases h
      rw [readItemB_clean_err ht1 h2]
      decide
    · rename_i dataB s2 h2
      have ht2 : s2.tailErr = false := (readItemB_ok h2).2.trans ht1
      split at h
      · rename_i e0 h3
        cases h
        rw [readItemB_clean_err ht2 h3]
        decide
      · rename_i bowB s3 h3
        split at h
        · rename_i e0 h4
          cases h
          rcases decFreqsGo_err bowB (List.replicate libSize 0) _ h4 with h5 | h5 <;>
            rw [h5] <;> decide
        · cases h

theorem loadLoopF_fuel (libSize : Nat) :
    ∀ (f1 : Nat) (f2 : Nat) (s : ByteSrc) (acc : List EntryB),
      s.bytes.length < f1 → s.bytes.length < f2 →
      loadLoopF f1 libSize s acc = loadLoopF f2 libSize s acc := by
  intro f1
  induction f1 with
  | zero => intro f2 s acc h1 _; omega
  | succ f1 ih =>
    intro f2 s acc h1 h2
    cases f2 with
    | zero => omega
    | succ f2 =>
      cases hre : readEntry libSize s with
      | ok p =>
        obtain ⟨e, s'⟩ := p
        have hlt := (readEntry_ok hre).1
        simp only [loadLoopF, hre]
        exact ih f2 s' (acc ++ [e]) (by omega) (by omega)
      | error err =>
        cases err <;> simp only [loadLoopF, hre]

theorem loadLoopF_no_readFail (libSize : Nat) :
    ∀ (fuel : Nat) (s : ByteSrc) (acc : List EntryB),
      s.bytes.length < fuel → s.tailErr = false →
      (loadLoopF fuel libSize s acc).2.2 ≠ some RErr.readFail := by
  intro fuel
  induction fuel with
  | zero => intro s acc h _; omega
  | succ fuel ih =>
    intro s acc hlen ht
    cases hre : readEntry libSize s with
    | ok p =>
      obtain ⟨e, s'⟩ := p
      obtain ⟨hlt, hterr⟩ := readEntry_ok hre
      simp only [loadLoopF, hre]
      exact ih s' (acc ++ [e]) (by omega) (hterr.trans ht)
    | error err =>
      have hne := readEntry_clean_err ht hre
      cases err with
      | eof => simp [loadLoopF, hre]
      | readFail => exact absurd rfl hne
      | panicIdx => simp [loadLoopF, hre]
      | panicChunk => simp [loadLoopF, hre]

theorem readAll_cached (libSize : Nat) (db : DBState) (l : List EntryB)
    (h : db.entries = some l) : readAll libSize db = (db, .ok l) := by
  simp only [readAll, h]

/-- C7: on a read-mode handle whose full load has succeeded, a second
`ReadAll` returns the same entry list and leaves the whole decoded state
(cache and stream position) unchanged — the stream is not read again. -/
theorem readAll_idempotent (libSize : Nat) (db db' : DBState) (l : List EntryB)
    (h : readAll libSize db = (db', .ok l)) : readAll libSize db' = (db', .ok l) := by
  cases hdb : db.entries with
  | some l0 =>
    rw [readAll_cached libSize db l0 hdb] at h
    injection h with h1 h2
    injection h2 with h2
    subst h1
    subst h2
    exact readAll_cached libSize db l0 hdb
  | none =>
    simp only [readAll, hdb] at h
    rcases hl : loadLoop libSize db.src [] with ⟨acc, s', oe⟩
    rw [hl] at h
    cases oe with
    | none =>
      simp only at h
      injection h with h1 h2
      injection h2 with h2
      subst h1
      subst h2
      exact readAll_cached libSize _ acc rfl
    | some e0 =>
      simp only at h
      injection h with h1 h2
      cases h2

/-- C7 witness: a successful (empty-stream) load, reloaded. -/
theorem readAll_idempotent_witness :
    readAll 1 ⟨some [], ⟨[], false⟩⟩ = (⟨some [], ⟨[], false⟩⟩, .ok []) :=
  readAll_idempotent 1 ⟨none, ⟨[], false⟩⟩ ⟨some [], ⟨[], false⟩⟩ [] (by rfl)

/-- C10: if `ReadAll` fails partway, the entries decoded before the
failure stay cached in the handle, and every later `ReadAll` returns that
partial list with no error and without touching the stream again. -/
theorem readAll_partial_cache (libSize : Nat) (db db' : DBState) (err : RErr)
    (h : readAll libSize db = (db', .error err)) :
    db'.entries = some (loadedRecs libSize db.src)
    ∧ readAll libSize db' = (db', .ok (loadedRecs libSize db.src)) := by
  cases hdb : db.entries with
  | some l0 =>
    rw [readAll_cached libSize db l0 hdb] at h
    injection h with h1 h2
    cases h2
  | none =>
    simp only [readAll, hdb] at h
    rcases hl : loadLoop libSize db.src [] with ⟨acc, s', oe⟩
    rw [hl] at h
    have hacc : loadedRecs libSize db.src = acc := by
      rw [loadedRecs, hl]
    cases oe with
    | none =>
      simp only at h
      injection h with h1 h2
      cases h2
    | some e0 =>
      simp only at h
      injection h with h1 h2
      subst h1
      rw [hacc]
      exact ⟨rfl, readAll_cached libSize _ acc rfl⟩

/-- C10 witness: a stream holding one good record and then a hard read
failure; the failed load caches the one record, and the next call returns
it with no error. -/
theorem readAll_partial_cache_witness :
    (⟨some [⟨[97], [], [1065353216]⟩], ⟨[0, 0, 0, 2, 97], true⟩⟩ : DBState).entries =
      some (loadedRecs 1 ⟨writeEntry ⟨[97], [], [1065353216]⟩ ++ [0, 0, 0, 2, 97], true⟩)
    ∧ readAll 1 ⟨some [⟨[97], [], [1065353216]⟩], ⟨[0, 0, 0, 2, 97], true⟩⟩ =
      (⟨some [⟨[97], [], [1065353216]⟩], ⟨[0, 0, 0, 2, 97], true⟩⟩,
        .ok (loadedRecs 1 ⟨writeEntry ⟨[97], [], [1065353216]⟩ ++ [0, 0, 0, 2, 97], true⟩)) :=
  readAll_partial_cache 1
    ⟨none, ⟨writeEntry ⟨[97], [], [1065353216]⟩ ++ [0, 0, 0, 2, 97], true⟩⟩
    ⟨some [⟨[97], [], [1065353216]⟩], ⟨[0, 0, 0, 2, 97], true⟩⟩ RErr.readFail (by rfl)

/-- C2 (amended): when the underlying stream ends in a clean `io.EOF`, the
decode loop never reports the hard read error — a truncated length prefix
or payload is absorbed as the `io.EOF` sentinel and `ReadAll` treats it as
clean termination (see the counterexample for the mid-item EOF). -/
theorem readAll_clean_no_readFail (libSize : Nat) (db : DBState)
    (ht : db.src.tailErr = false) :
    (readAll libSize db).2 ≠ .error RErr.readFail := by
  cases hdb : db.entries with
  | some l0 =>
    rw [readAll_cached libSize db l0 hdb]
    intro hc
    cases hc
  | none =>
    simp only [readAll, hdb]
    rcases hl : loadLoop libSize db.src [] with ⟨acc, s', oe⟩
    have hno := loadLoopF_no_readFail libSize (db.src.bytes.length + 1) db.src []
      (by omega) ht
    rw [show loadLoopF (db.src.bytes.length + 1) libSize db.src [] =
      loadLoop libSize db.src [] from rfl, hl] at hno
    cases oe with
    | none =>
      simp only
      intro hc
      cases hc
    | some e0 =>
      simp only
      intro hc
      injection hc with hc
      subst hc
      exact hno rfl

/-- C2 counterexample: a stream consisting of a 4-byte length prefix
declaring a 5-byte item that is absent.  The claim requires a hard
malformed-item error; the code reports the `io.EOF` sentinel from inside
the item (not at a clean item boundary), and `ReadAll` then returns
cleanly with the truncated item silently dropped. -/
theorem truncated_item_reports_eof :
    readItemB ⟨[0, 0, 0, 5], false⟩ = .error RErr.eof
    ∧ readAll 1 ⟨none, ⟨[0, 0, 0, 5], false⟩⟩ =
      (⟨some [], ⟨[0, 0, 0, 5], false⟩⟩, .ok []) :=
  ⟨by rfl, by rfl⟩

/-- C2 witness: the amended no-hard-error property applied to a concrete
truncated clean stream. -/
theorem readAll_clean_no_readFail_witness :
    (readAll 1 ⟨none, ⟨[0, 0, 0, 7], false⟩⟩).2 ≠ .error RErr.readFail :=
  readAll_clean_no_readFail 1 ⟨none, ⟨[0, 0, 0, 7], false⟩⟩ rfl

theorem readAll_none_entries (libSize : Nat) (db : DBState)
    (h : db.entries = none) :
    (readAll libSize db).1.entries = some (loadedRecs libSize db.src) := by
  simp only [readAll, h]
  rcases hl : loadLoop libSize db.src [] with ⟨acc, s', oe⟩
  have hacc : loadedRecs libSize db.src = acc := by
    rw [loadedRecs, hl]
  cases oe with
  | none => simp [hacc]
  | some e0 => simp [hacc]

/-- C6 (amended): a query on a handle with no cache triggers the implicit
load and then answers from exactly the records decoded before the first
failure — the whole stream when the load succeeded, and the partial
prefix when it failed (the implicit `ReadAll` error is discarded), so a
query issued before any successful full load is answered from the
partially loaded record set.  The counterexample below shows the two
concrete failures of the claim as stated. -/
theorem search_serves_loaded (libSize : Nat) (db : DBState) (opts : SOpts)
    (q : EntryV) (h : db.entries = none) :
    (searchDB libSize db opts q).2 =
      searchCore opts q ((loadedRecs libSize db.src).map toEntryV) := by
  have he := readAll_none_entries libSize db h
  simp only [searchDB, h]
  rw [he]
  rfl

/-- C6 counterexample: (a) a record stream ending in a truncated
(malformed) item at clean EOF: the load returns with no error and the
truncated record silently dropped, instead of aborting with a descriptive
error; (b) a stream whose tail fails hard after one good record: the load
fails, yet a query issued afterwards (before any successful full load)
returns one result, answered from the partially loaded record set. -/
theorem load_truncation_and_partial_serve_cex :
    readAll 1 ⟨none, ⟨writeEntry ⟨[97], [], [1065353216]⟩ ++ [0, 0, 0, 9], false⟩⟩ =
      (⟨some [⟨[97], [], [1065353216]⟩], ⟨[0, 0, 0, 9], false⟩⟩,
        .ok [⟨[97], [], [1065353216]⟩])
    ∧ (readAll 1 ⟨none, ⟨writeEntry ⟨[97], [], [1065353216]⟩ ++ [0, 0, 0, 2, 97], true⟩⟩).2 =
      .error RErr.readFail
    ∧ ((searchDB 1 ⟨none, ⟨writeEntry ⟨[97], [], [1065353216]⟩ ++ [0, 0, 0, 2, 97], true⟩⟩
          ⟨-1, F.fin 0, F.fin 1, SortByEuclid, OrderAsc⟩
          ⟨[], [], [F.nan]⟩).2.toOption.getD []).length = 1 :=
  ⟨by rfl, by rfl, by rfl⟩

/-- C6 witness: the amended serving equation applied to a concrete
uncached handle. -/
theorem search_serves_loaded_witness :
    (searchDB 1 ⟨none, ⟨[], false⟩⟩ ⟨-1, F.fin 0, F.fin 1, SortByEuclid, OrderAsc⟩
        ⟨[], [], []⟩).2 =
      searchCore ⟨-1, F.fin 0, F.fin 1, SortByEuclid, OrderAsc⟩ ⟨[], [], []⟩
        ((loadedRecs 1 ⟨[], false⟩).map toEntryV) :=
  search_serves_loaded 1 ⟨none, ⟨[], false⟩⟩
    ⟨-1, F.fin 0, F.fin 1, SortByEuclid, OrderAsc⟩ ⟨[], [], []⟩ rfl

theorem decFreqsGo_length :
    ∀ (b acc : List Nat), ∀ freqs, decFreqsGo b acc = .ok freqs →
      freqs.length = acc.length := by
  intro b acc
  induction b, acc using decFreqsGo.induct with
  | case1 acc =>
    intro freqs h
    injection h with h
    rw [← h]
  | case2 b0 b1 b2 b3 b4 b5 rest acc i hlt ih =>
    intro freqs h
    simp only [decFreqsGo, hlt, if_true] at h
    rw [ih freqs h, List.length_set]
  | case3 b0 b1 b2 b3 b4 b5 rest acc i hlt =>
    intro freqs h
    simp only [decFreqsGo, hlt, if_false] at h
    cases h
  | case4 t x h1 h2 =>
    intro freqs h
    rcases t with _ | ⟨b0, t⟩
    · exact absurd rfl h1
    rcases t with _ | ⟨b1, t⟩
    · cases h
    rcases t with _ | ⟨b2, t⟩
    · cases h
    rcases t with _ | ⟨b3, t⟩
    · cases h
    rcases t with _ | ⟨b4, t⟩
    · cases h
    rcases t with _ | ⟨b5, t⟩
    · cases h
    · exact absurd rfl (h2 b0 b1 b2 b3 b4 b5 t)

theorem decFreqsGo_untouched :
    ∀ (b acc : List Nat), ∀ freqs, decFreqsGo b acc = .ok freqs →
      ∀ j, j ∉ chunkIdxs b → freqs[j]? = acc[j]? := by
  intro b acc
  induction b, acc using decFreqsGo.induct with
  | case1 acc =>
    intro freqs h j _
    injection h with h
    rw [← h]
  | case2 b0 b1 b2 b3 b4 b5 rest acc i hlt ih =>
    intro freqs h j hj
    simp only [decFreqsGo, hlt, if_true] at h
    simp only [chunkIdxs, List.mem_cons, not_or] at hj
    rw [ih freqs h j hj.2, List.getElem?_set_ne (by exact fun hc => hj.1 hc.symm)]
  | case3 b0 b1 b2 b3 b4 b5 rest acc i hlt =>
    intro freqs h
    simp only [decFreqsGo, hlt, if_false] at h
    cases h
  | case4 t x h1 h2 =>
    intro freqs h
    rcases t with _ | ⟨b0, t⟩
    · exact absurd rfl h1
    rcases t with _ | ⟨b1, t⟩
    · cases h
    rcases t with _ | ⟨b2, t⟩
    · cases h
    rcases t with _ | ⟨b3, t⟩
    · cases h
    rcases t with _ | ⟨b4, t⟩
    · cases h
    rcases t with _ | ⟨b5, t⟩
    · cases h
    · exact absurd rfl (h2 b0 b1 b2 b3 b4 b5 t)

theorem readEntry_freqs_length {libSize : Nat} {s s' : ByteSrc} {e : EntryB}
    (h : readEntry libSize s = .ok (e, s')) : e.freqs.length = libSize := by
  rw [readEntry] at h
  split at h
  · cases h
  · rename_i idB s1 h1
    split at h
    · cases h
    · rename_i dataB s2 h2
      split at h
      · cases h
      · rename_i bowB s3 h3
        split at h
        · cases h
        · rename_i freqs h4
          cases h
          rw [show (⟨idB, dataB, freqs⟩ : EntryB).freqs = freqs from rfl,
            decFreqsGo_length bowB (List.replicate libSize 0) freqs h4,
            List.length_replicate]

theorem loadLoopF_freqs_length (libSize : Nat) :
    ∀ (fuel : Nat) (s : ByteSrc) (acc : List EntryB),
      (∀ e ∈ acc, e.freqs.length = libSize) →
      ∀ e ∈ (loadLoopF fuel libSize s acc).1, e.freqs.length = libSize := by
  intro fuel
  induction fuel with
  | zero => intro s acc hacc; exact hacc
  | succ fuel ih =>
    intro s acc hacc
    cases hre : readEntry libSize s with
    | ok p =>
      obtain ⟨e0, s'⟩ := p
      simp only [loadLoopF, hre]
      refine ih s' (acc ++ [e0]) ?_
      intro e he
      rcases List.mem_append.mp he with he | he
      · exact hacc e he
      · rw [List.mem_singleton.mp he]
        exact readEntry_freqs_length hre
    | error err =>
      cases err <;> simp only [loadLoopF, hre] <;> exact hacc

/-- C9: every record produced by a successful full load has a frequency
vector of length exactly the library size (the decoder zero-initializes a
vector of length `Lib.Size()` recovered from the library metadata, never
from the stream), and the bow-item decoder leaves every index absent from
the sparse chunk list at exact zero. -/
theorem record_vector_shape :
    (∀ (libSize : Nat) (db db' : DBState) (l : List EntryB),
      db.entries = none → readAll libSize db = (db', .ok l) →
      ∀ e ∈ l, e.freqs.length = libSize)
    ∧ (∀ (libSize : Nat) (b freqs : List Nat),
      decodeFreqs libSize b = .ok freqs →
      freqs.length = libSize ∧
      ∀ j, j < libSize → j ∉ chunkIdxs b → freqs[j]? = some 0) := by
  constructor
  · intro libSize db db' l hdb h
    simp only [readAll, hdb] at h
    rcases hl : loadLoop libSize db.src [] with ⟨acc, s', oe⟩
    rw [hl] at h
    cases oe with
    | none =>
      simp only at h
      injection h with h1 h2
      injection h2 with h2
      subst h2
      have := loadLoopF_freqs_length libSize (db.src.bytes.length + 1) db.src []
        (fun e he => absurd he (List.not_mem_nil e))
      rw [show loadLoopF (db.src.bytes.length + 1) libSize db.src [] =
        loadLoop libSize db.src [] from rfl, hl] at this
      exact this
    | some e0 =>
      simp only at h
      injection h with h1 h2
      cases h2
  · intro libSize b freqs h
    refine ⟨?_, ?_⟩
    · rw [decFreqsGo_length b (List.replicate libSize 0) freqs h, List.length_replicate]
    · intro j hj hjc
      rw [decFreqsGo_untouched b (List.replicate libSize 0) freqs h j hjc]
      simp [hj]

/-- C9 witness: the two parts applied to a concrete one-record stream and
a concrete two-fragment bow item with one sparse pair. -/
theorem record_vector_shape_witness :
    (⟨[97], [], [1065353216]⟩ : EntryB).freqs.length = 1
    ∧ ([1065353216, 0] : List Nat).length = 2
    ∧ ([1065353216, 0] : List Nat)[1]? = some 0 :=
  ⟨record_vector_shape.1 1 ⟨none, ⟨writeEntry ⟨[97], [], [1065353216]⟩, false⟩⟩
      ⟨some [⟨[97], [], [1065353216]⟩], ⟨[], false⟩⟩ [⟨[97], [], [1065353216]⟩]
      rfl (by rfl) ⟨[97], [], [1065353216]⟩ (List.mem_singleton.mpr rfl),
    (record_vector_shape.2 2 [0, 0, 63, 128, 0, 0] [1065353216, 0] (by rfl)).1,
    (record_vector_shape.2 2 [0, 0, 63, 128, 0, 0] [1065353216, 0] (by rfl)).2 1
      (by decide) (by decide)⟩

/-! ## Round-trip lemmas for the record codec -/

theorem beN_u32be {n : Nat} (h : n < 4294967296) : beN (u32be n) = n := by
  rw [u32be, beN]
  simp only [List.foldl]
  omega

theorem u16_digits {i : Nat} (h : i < 65536) : i / 256 % 256 * 256 + i % 256 = i := by
  omega

theorem readNBytes_exact (b rest : List Nat) (t : Bool) :
    readNBytes b.length ⟨b ++ rest, t⟩ = .ok (b, ⟨rest, t⟩) := by
  rw [readNBytes, if_pos (by simp)]
  rw [List.take_left, List.drop_left]

theorem readItemB_encItem (b rest : List Nat) (t : Bool) (h : b.length < 4294967296) :
    readItemB ⟨encItem b ++ rest, t⟩ = .ok (b, ⟨rest, t⟩) := by
  have h4 : readNBytes 4 ⟨encItem b ++ rest, t⟩ = .ok (u32be b.length, ⟨b ++ rest, t⟩) := by
    have heq : encItem b ++ rest = u32be b.length ++ (b ++ rest) := by
      rw [encItem, List.append_assoc]
    have hlen : (4 : Nat) = (u32be b.length).length := rfl
    rw [heq, hlen]
    exact readNBytes_exact (u32be b.length) (b ++ rest) t
  simp only [readItemB, h4]
  rw [beN_u32be h]
  exact readNBytes_exact b rest t

theorem readItemB_encItem_nil (b : List Nat) (t : Bool) (h : b.length < 4294967296) :
    readItemB ⟨encItem b, t⟩ = .ok (b, ⟨[], t⟩) := by
  rw [show encItem b = encItem b ++ [] from (List.append_nil _).symm]
  exact readItemB_encItem b [] t h

theorem spEnc_length_le : ∀ (start : Nat) (fs : List Nat),
    (spEnc start fs).length ≤ 6 * fs.length := by
  intro start fs
  induction fs generalizing start with
  | nil => simp [spEnc]
  | cons f fs ih =>
    rw [spEnc]
    by_cases hp : posBits f = true
    · rw [if_pos hp]
      simp only [List.length_append, List.length_cons]
      have := ih (start + 1)
      simp only [u16be, u32be, List.length_append, List.length_cons, List.length_nil]
      omega
    · rw [if_neg hp, List.nil_append]
      have := ih (start + 1)
      simp only [List.length_cons]
      omega

theorem take_succ_set (acc : List Nat) (i : Nat) (f : Nat) :
    ∀ _ : i < acc.length, (acc.set i f).take (i + 1) = acc.take i ++ [f] := by
  induction acc generalizing i with
  | nil => intro h; simp at h
  | cons a t ih =>
    intro h
    cases i with
    | zero => simp
    | succ i =>
      simp only [List.set_cons_succ, List.take_succ_cons]
      rw [ih i (by simpa using h)]
      rfl

theorem decFreqsGo_spEnc :
    ∀ (fs : List Nat) (start : Nat) (acc : List Nat),
      start + fs.length = acc.length → acc.length ≤ 65536 →
      (∀ b ∈ fs, b < 4294967296) → (∀ b ∈ fs, b = 0 ∨ posBits b = true) →
      (∀ k, start ≤ k → k < acc.length → acc[k]? = some 0) →
      decFreqsGo (spEnc start fs) acc = .ok (acc.take start ++ fs) := by
  intro fs
  induction fs with
  | nil =>
    intro start acc hlen _ _ _ _
    have hs : start = acc.length := by simpa using hlen
    rw [spEnc, decFreqsGo, hs, List.take_length, List.append_nil]
  | cons f fs ih =>
    intro start acc hlen hle hbound hpos hzero
    have hstartlt : start < acc.length := by
      simp only [List.length_cons] at hlen
      omega
    by_cases hp : posBits f = true
    · rw [spEnc, if_pos hp]
      simp only [u16be, u32be, List.cons_append, List.nil_append]
      rw [decFreqsGo]
      rw [u16_digits (by omega), if_pos hstartlt]
      have hval : beN [f / 16777216 % 256, f / 65536 % 256, f / 256 % 256, f % 256] = f := by
        have := beN_u32be (hbound f (List.mem_cons_self f fs))
        rwa [u32be] at this
      rw [hval]
      have hrec := ih (start + 1) (acc.set start f)
        (by simp only [List.length_set, List.length_cons] at hlen ⊢; omega)
        (by rwa [List.length_set])
        (fun b hb => hbound b (List.mem_cons_of_mem f hb))
        (fun b hb => hpos b (List.mem_cons_of_mem f hb))
        (fun k hk hk2 => by
          rw [List.getElem?_set_ne (by omega)]
          exact hzero k (by omega) (by rwa [List.length_set] at hk2))
      rw [hrec, take_succ_set acc start f hstartlt, List.append_assoc]
      rfl
    · have hf0 : f = 0 := by
        rcases hpos f (List.mem_cons_self f fs) with h | h
        · exact h
        · exact absurd h hp
      rw [spEnc, if_neg hp, List.nil_append]
      have hrec := ih (start + 1) acc
        (by simp only [List.length_cons] at hlen; omega)
        hle
        (fun b hb => hbound b (List.mem_cons_of_mem f hb))
        (fun b hb => hpos b (List.mem_cons_of_mem f hb))
        (fun k hk hk2 => hzero k (by omega) hk2)
      rw [hrec, List.take_succ, hzero start (le_refl start) hstartlt, hf0]
      simp

/-- C1 (amended): encoding a record with `DB.write` and decoding the bytes
with `DB.read` is the identity whenever every frequency bit pattern is
either exactly `+0.0` or a positive value (`f > 0`), the library size fits
the 2-byte sparse index, and the item lengths fit the 4-byte prefix.  As
stated over all bit patterns the claim fails: negative, `-0.0` and NaN
patterns are not written by the sparse encoder and decode as `+0.0`
(see the counterexample). -/
theorem write_read_roundtrip (libSize : Nat) (e : EntryB)
    (hlen : e.freqs.length = libSize) (hls : libSize ≤ 65536)
    (hbound : ∀ b ∈ e.freqs, b < 4294967296)
    (hpos : ∀ b ∈ e.freqs, b = 0 ∨ posBits b = true)
    (hid : e.id.length < 4294967296) (hdata : e.data.length < 4294967296) :
    readEntry libSize ⟨writeEntry e, false⟩ = .ok (e, ⟨[], false⟩) := by
  have hsp : (spEnc 0 e.freqs).length < 4294967296 :=
    lt_of_le_of_lt (spEnc_length_le 0 e.freqs) (by omega)
  have h1 : readItemB ⟨writeEntry e, false⟩ =
      .ok (e.id, ⟨encItem e.data ++ encItem (spEnc 0 e.freqs), false⟩) := by
    rw [writeEntry]
    exact readItemB_encItem e.id _ false hid
  have h2 : readItemB ⟨encItem e.data ++ encItem (spEnc 0 e.freqs), false⟩ =
      .ok (e.data, ⟨encItem (spEnc 0 e.freqs), false⟩) :=
    readItemB_encItem e.data _ false hdata
  have h3 : readItemB ⟨encItem (spEnc 0 e.freqs), false⟩ =
      .ok (spEnc 0 e.freqs, ⟨[], false⟩) :=
    readItemB_encItem_nil _ false hsp
  have h4 : decodeFreqs libSize (spEnc 0 e.freqs) = .ok e.freqs := by
    rw [decodeFreqs]
    have := decFreqsGo_spEnc e.freqs 0 (List.replicate libSize 0)
      (by simp [hlen]) (by simpa using hls) hbound hpos
      (fun k _ hk => by
        rw [List.getElem?_replicate, if_pos (by simpa using hk)])
    simpa using this
  simp only [readEntry, h1, h2, h3, h4]

/-- C1 counterexample: the bit pattern `0xBF800000` (`-1.0`) satisfies
neither `f > 0` nor `= +0.0`, so the sparse encoder drops it and the
decoder reconstructs `+0.0`: the round trip is not bit-identical. -/
theorem write_read_not_identity :
    readEntry 1 ⟨writeEntry ⟨[97], [], [3212836864]⟩, false⟩ =
      .ok (⟨[97], [], [0]⟩, ⟨[], false⟩)
    ∧ ([0] : List Nat) ≠ [3212836864] :=
  ⟨by rfl, by decide⟩

/-- C1 witness: a concrete record with a positive frequency (`1.0`) and an
exact-zero frequency, with payload, round-trips bit-identically. -/
theorem write_read_roundtrip_witness :
    readEntry 2 ⟨writeEntry ⟨[97], [5], [1065353216, 0]⟩, false⟩ =
      .ok (⟨[97], [5], [1065353216, 0]⟩, ⟨[], false⟩) :=
  write_read_roundtrip 2 ⟨[97], [5], [1065353216, 0]⟩ (by decide) (by decide)
    (by decide) (by decide) (by decide) (by decide)

/-! ## Cosine distance lemmas -/

theorem fadd_nan_left (x : F) : fadd F.nan x = F.nan := by cases x <;> rfl

theorem foldl_fadd_nan : ∀ l : List F, List.foldl fadd F.nan l = F.nan := by
  intro l
  induction l with
  | nil => rfl
  | cons x t ih =>
    rw [List.foldl_cons, fadd_nan_left]
    exact ih

theorem sq_shape (x : F) :
    sqF x = F.nan ∨ sqF x = F.pinf ∨ ∃ q, 0 ≤ q ∧ sqF x = F.fin q := by
  cases x with
  | nan => exact Or.inl rfl
  | pinf => exact Or.inr (Or.inl rfl)
  | ninf => exact Or.inr (Or.inl rfl)
  | fin q => exact Or.inr (Or.inr ⟨q * q, mul_self_nonneg q, rfl⟩)

theorem foldl_fadd_pinf_sq : ∀ l : List F,
    List.foldl fadd F.pinf (l.map sqF) = F.pinf
    ∨ List.foldl fadd F.pinf (l.map sqF) = F.nan := by
  intro l
  induction l with
  | nil => exact Or.inl rfl
  | cons x t ih =>
    rw [List.map_cons, List.foldl_cons]
    rcases sq_shape x with hx | hx | ⟨q, _, hx⟩
    · rw [hx]
      exact Or.inr (foldl_fadd_nan _)
    · rw [hx]
      exact ih
    · rw [hx]
      exact ih

theorem foldl_fadd_sq_shape : ∀ (l : List F) (a : ℚ), 0 ≤ a →
    List.foldl fadd (F.fin a) (l.map sqF) = F.nan
    ∨ List.foldl fadd (F.fin a) (l.map sqF) = F.pinf
    ∨ ∃ q, 0 ≤ q ∧ List.foldl fadd (F.fin a) (l.map sqF) = F.fin q := by
  intro l
  induction l with
  | nil =>
    intro a ha
    exact Or.inr (Or.inr ⟨a, ha, rfl⟩)
  | cons x t ih =>
    intro a ha
    rw [List.map_cons, List.foldl_cons]
    rcases sq_shape x with hx | hx | ⟨q, hq, hx⟩
    · rw [hx]
      exact Or.inl (foldl_fadd_nan _)
    · rw [hx]
      rcases foldl_fadd_pinf_sq t with h | h
      · exact Or.inr (Or.inl h)
      · exact Or.inl h
    · rw [hx]
      exact ih (a + q) (by positivity)

theorem sumSq_shape (l : List F) :
    sumSq l = F.nan ∨ sumSq l = F.pinf ∨ ∃ q, 0 ≤ q ∧ sumSq l = F.fin q :=
  foldl_fadd_sq_shape l 0 le_rfl

theorem foldl_fadd_sq_zero : ∀ (l : List F) (a : ℚ), 0 ≤ a →
    List.foldl fadd (F.fin a) (l.map sqF) = F.fin 0 →
    a = 0 ∧ ∀ x ∈ l, x = F.fin 0 := by
  intro l
  induction l with
  | nil =>
    intro a _ h
    injection h with h
    exact ⟨by exact_mod_cast h, fun x hx => absurd hx (List.not_mem_nil x)⟩
  | cons x t ih =>
    intro a ha h
    rw [List.map_cons, List.foldl_cons] at h
    rcases sq_shape x with hx | hx | ⟨q, hq, hx⟩
    · rw [hx, show fadd (F.fin a) F.nan = F.nan from rfl, foldl_fadd_nan] at h
      cases h
    · rw [hx] at h
      rcases foldl_fadd_pinf_sq t with h2 | h2 <;>
        rw [show fadd (F.fin a) F.pinf = F.pinf from rfl, h2] at h <;> cases h
    · rw [hx] at h
      have hxf : ∃ p, x = F.fin p ∧ q = p * p := by
        cases x with
        | nan => cases hx
        | pinf => cases hx
        | ninf => cases hx
        | fin p =>
          refine ⟨p, rfl, ?_⟩
          injection hx with hx
          exact hx.symm
      obtain ⟨p, hxp, hqp⟩ := hxf
      obtain ⟨hz, hrest⟩ := ih (a + q) (by positivity) h
      have hp0 : p = 0 := by
        have : q = 0 := by nlinarith [mul_self_nonneg p]
        rw [hqp] at this
        exact mul_self_eq_zero.mp this
      refine ⟨by nlinarith [mul_self_nonneg p], ?_⟩
      intro y hy
      rcases List.mem_cons.mp hy with hy | hy
      · rw [hy, hxp, hp0]
      · exact hrest y hy

theorem sumSq_eq_zero_all_zero {l : List F} (h : sumSq l = F.fin 0) :
    ∀ x ∈ l, x = F.fin 0 :=
  (foldl_fadd_sq_zero l 0 le_rfl h).2

theorem ratSqrt_eq_zero {q : ℚ} (h0 : 0 ≤ q) (h : Rat.sqrt q = 0) : q = 0 := by
  by_contra hne
  have hq : 0 < q := lt_of_le_of_ne h0 (Ne.symm hne)
  have hnum : 0 < q.num := Rat.num_pos.mpr hq
  have hden : 0 < Nat.sqrt q.den := Nat.sqrt_pos.mpr q.pos
  rw [Rat.sqrt, Rat.mkRat_eq_zero (by omega)] at h
  rw [Int.sqrt] at h
  simp only [Int.natCast_eq_zero, Nat.sqrt_eq_zero] at h
  omega

theorem fsqrt_eq_zero {x : F} (h : fsqrt x = F.fin 0) : x = F.fin 0 := by
  cases x with
  | nan => cases h
  | pinf => cases h
  | ninf => cases h
  | fin q =>
    rw [fsqrt] at h
    by_cases hq : q < 0
    · rw [if_pos hq] at h
      cases h
    · rw [if_neg hq] at h
      injection h with h
      rw [ratSqrt_eq_zero (not_lt.mp hq) h]

theorem sumSq_all_zero : ∀ l : List F, (∀ x ∈ l, x = F.fin 0) → sumSq l = F.fin 0 := by
  have key : ∀ (l : List F) (a : ℚ), (∀ x ∈ l, x = F.fin 0) →
      List.foldl fadd (F.fin a) (l.map sqF) = F.fin a := by
    intro l
    induction l with
    | nil => intro a _; rfl
    | cons x t ih =>
      intro a hz
      rw [List.map_cons, List.foldl_cons, hz x (List.mem_cons_self x t)]
      rw [show fadd (F.fin a) (sqF (F.fin 0)) = F.fin (a + 0 * 0) from rfl]
      rw [show a + 0 * 0 = a by ring]
      exact ih a (fun y hy => hz y (List.mem_cons_of_mem x hy))
  intro l hz
  exact key l 0 hz

theorem ratSqrt_zero : Rat.sqrt 0 = 0 := by
  have h := Rat.sqrt_eq (0 : ℚ)
  rw [mul_zero] at h
  rw [h, abs_zero]

theorem fmul_nan_left (y : F) : fmul F.nan y = F.nan := by cases y <;> rfl

theorem fmul_nan_right (x : F) : fmul x F.nan = F.nan := by cases x <;> rfl

theorem fmul_zero_left (y : F) :
    fmul (F.fin 0) y = F.fin 0 ∨ fmul (F.fin 0) y = F.nan := by
  cases y with
  | nan => exact Or.inr rfl
  | pinf => exact Or.inr (by rw [fmul, if_pos rfl])
  | ninf => exact Or.inr (by rw [fmul, if_pos rfl])
  | fin q => exact Or.inl (by rw [fmul, zero_mul])

theorem fmul_zero_right (x : F) :
    fmul x (F.fin 0) = F.fin 0 ∨ fmul x (F.fin 0) = F.nan := by
  cases x with
  | nan => exact Or.inr rfl
  | pinf => exact Or.inr (by rw [fmul, if_pos rfl])
  | ninf => exact Or.inr (by rw [fmul, if_pos rfl])
  | fin q => exact Or.inl (by rw [fmul, mul_zero])

theorem mem_zipWith_fmul {z : F} :
    ∀ {l1 l2 : List F}, z ∈ List.zipWith fmul l1 l2 →
      ∃ a ∈ l1, ∃ b ∈ l2, z = fmul a b := by
  intro l1
  induction l1 with
  | nil => intro l2 h; simp at h
  | cons a t ih =>
    intro l2 h
    cases l2 with
    | nil => simp at h
    | cons b t2 =>
      rw [List.zipWith_cons_cons] at h
      rcases List.mem_cons.mp h with h | h
      · exact ⟨a, by simp, b, by simp, h⟩
      · obtain ⟨a2, ha, b2, hb, hz⟩ := ih h
        exact ⟨a2, by simp [ha], b2, by simp [hb], hz⟩

theorem sumF_zero_or_nan :
    ∀ l : List F, (∀ z ∈ l, z = F.fin 0 ∨ z = F.nan) →
      sumF l = F.fin 0 ∨ sumF l = F.nan := by
  have key : ∀ (l : List F) (a : F), (a = F.fin 0 ∨ a = F.nan) →
      (∀ z ∈ l, z = F.fin 0 ∨ z = F.nan) →
      List.foldl fadd a l = F.fin 0 ∨ List.foldl fadd a l = F.nan := by
    intro l
    induction l with
    | nil => intro a ha _; exact ha
    | cons z t ih =>
      intro a ha hz
      rw [List.foldl_cons]
      refine ih (fadd a z) ?_ (fun y hy => hz y (List.mem_cons_of_mem z hy))
      rcases ha with ha | ha <;> rcases hz z (List.mem_cons_self z t) with h0 | h0 <;>
        rw [ha, h0]
      · exact Or.inl (by rw [fadd, add_zero])
      · exact Or.inr rfl
      · exact Or.inr rfl
      · exact Or.inr rfl
  intro l hz
  exact key l (F.fin 0) (Or.inl rfl) hz

theorem dot_zero_left {f1 f2 : List F} (h : ∀ x ∈ f1, x = F.fin 0) :
    dotF f1 f2 = F.fin 0 ∨ dotF f1 f2 = F.nan := by
  refine sumF_zero_or_nan _ ?_
  intro z hz
  obtain ⟨a, ha, b, _, hab⟩ := mem_zipWith_fmul hz
  rw [hab, h a ha]
  exact fmul_zero_left b

theorem dot_zero_right {f1 f2 : List F} (h : ∀ x ∈ f2, x = F.fin 0) :
    dotF f1 f2 = F.fin 0 ∨ dotF f1 f2 = F.nan := by
  refine sumF_zero_or_nan _ ?_
  intro z hz
  obtain ⟨a, _, b, hb, hab⟩ := mem_zipWith_fmul hz
  rw [hab, h b hb]
  exact fmul_zero_right a

theorem fsqrt_zero_or_nan {x : F} (h : x = F.fin 0 ∨ x = F.nan) :
    fsqrt x = F.fin 0 ∨ fsqrt x = F.nan := by
  rcases h with h | h <;> rw [h]
  · rw [fsqrt, if_neg (by norm_num), ratSqrt_zero]
    exact Or.inl rfl
  · exact Or.inr rfl

theorem fdiv_zn_nan {x y : F} (hx : x = F.fin 0 ∨ x = F.nan)
    (hy : y = F.fin 0 ∨ y = F.nan) : fdiv x y = F.nan := by
  rcases hx with hx | hx <;> rcases hy with hy | hy <;> rw [hx, hy]
  · rw [fdiv, if_pos rfl, if_pos rfl]
  · rfl
  · rfl
  · rfl

theorem cosineF_guard {f1 f2 : List F}
    (hdot : dotF f1 f2 = F.fin 0 ∨ dotF f1 f2 = F.nan)
    (hden : fmul (sumSq f1) (sumSq (f2.take f1.length)) = F.fin 0
      ∨ fmul (sumSq f1) (sumSq (f2.take f1.length)) = F.nan) :
    cosineF f1 f2 = F.fin 1 := by
  have hr : fsub (F.fin 1) (fdiv (dotF f1 f2)
      (fsqrt (fmul (sumSq f1) (sumSq (f2.take f1.length))))) = F.nan := by
    rw [fdiv_zn_nan hdot (fsqrt_zero_or_nan hden)]
    rfl
  rw [cosineF]
  rw [hr]
  rfl

theorem cosineF_zero_mag_left {f1 f2 : List F}
    (h : magnitudeF f1 = F.fin 0) : cosineF f1 f2 = F.fin 1 := by
  have hs : sumSq f1 = F.fin 0 := fsqrt_eq_zero h
  have hall := sumSq_eq_zero_all_zero hs
  refine cosineF_guard (dot_zero_left hall) ?_
  rw [hs]
  exact fmul_zero_left _

theorem cosineF_zero_mag_right {f1 f2 : List F}
    (h : magnitudeF f2 = F.fin 0) : cosineF f1 f2 = F.fin 1 := by
  have hs : sumSq f2 = F.fin 0 := fsqrt_eq_zero h
  have hall := sumSq_eq_zero_all_zero hs
  have htake : ∀ x ∈ f2.take f1.length, x = F.fin 0 :=
    fun x hx => hall x (List.take_subset _ _ hx)
  refine cosineF_guard (dot_zero_right hall) ?_
  rw [sumSq_all_zero _ htake]
  exact fmul_zero_right _

theorem fsqrt_fin (q : ℚ) :
    fsqrt (F.fin q) = if q < 0 then F.nan else F.fin (Rat.sqrt q) := rfl

theorem fsqrt_nan : fsqrt F.nan = F.nan := rfl

theorem fsqrt_pinf : fsqrt F.pinf = F.pinf := rfl

theorem fmul_pinf_fin (b : ℚ) :
    fmul F.pinf (F.fin b) =
      if b = 0 then F.nan else if 0 < b then F.pinf else F.ninf := rfl

theorem fmul_fin_pinf (a : ℚ) :
    fmul (F.fin a) F.pinf =
      if a = 0 then F.nan else if 0 < a then F.pinf else F.ninf := rfl

theorem fmul_fin_fin (a b : ℚ) : fmul (F.fin a) (F.fin b) = F.fin (a * b) := rfl

theorem fsqrt_fmul {X Y : F}
    (hX : X = F.nan ∨ X = F.pinf ∨ ∃ q, 0 ≤ q ∧ X = F.fin q)
    (hY : Y = F.nan ∨ Y = F.pinf ∨ ∃ q, 0 ≤ q ∧ Y = F.fin q)
    (heX : ExactSqrt X) (heY : ExactSqrt Y) :
    fsqrt (fmul X Y) = fmul (fsqrt X) (fsqrt Y) := by
  rcases hX with hX | hX | ⟨q1, hq1, hX⟩
  · rw [hX, fmul_nan_left, fsqrt_nan, fmul_nan_left]
  · rcases hY with hY | hY | ⟨q2, hq2, hY⟩
    · rw [hX, hY]
      rfl
    · rw [hX, hY]
      rfl
    · subst hX hY
      have hs2 : Rat.sqrt q2 * Rat.sqrt q2 = q2 := heY
      by_cases h0 : q2 = 0
      · subst h0
        rw [fmul_pinf_fin, if_pos rfl, fsqrt_fin, if_neg (by norm_num), ratSqrt_zero,
          fsqrt_nan, fsqrt_pinf, fmul_pinf_fin, if_pos rfl]
      · have hpos : 0 < q2 := lt_of_le_of_ne hq2 (Ne.symm h0)
        have hsq_pos : 0 < Rat.sqrt q2 := by
          rcases lt_or_eq_of_le (Rat.sqrt_nonneg q2) with h | h
          · exact h
          · exact absurd (ratSqrt_eq_zero hq2 h.symm) h0
        rw [fmul_pinf_fin, if_neg h0, if_pos hpos, fsqrt_fin, if_neg (not_lt.mpr hq2),
          fsqrt_pinf, fmul_pinf_fin, if_neg (ne_of_gt hsq_pos), if_pos hsq_pos]
  · rcases hY with hY | hY | ⟨q2, hq2, hY⟩
    · rw [hX, hY, fmul_nan_right, fsqrt_nan, fmul_nan_right]
    · subst hX hY
      have hs1 : Rat.sqrt q1 * Rat.sqrt q1 = q1 := heX
      by_cases h0 : q1 = 0
      · subst h0
        rw [fmul_fin_pinf, if_pos rfl, fsqrt_fin, if_neg (by norm_num), ratSqrt_zero,
          fsqrt_nan, fsqrt_pinf, fmul_fin_pinf, if_pos rfl]
      · have hpos : 0 < q1 := lt_of_le_of_ne hq1 (Ne.symm h0)
        have hsq_pos : 0 < Rat.sqrt q1 := by
          rcases lt_or_eq_of_le (Rat.sqrt_nonneg q1) with h | h
          · exact h
          · exact absurd (ratSqrt_eq_zero hq1 h.symm) h0
        rw [fmul_fin_pinf, if_neg h0, if_pos hpos, fsqrt_fin, if_neg (not_lt.mpr hq1),
          fsqrt_pinf, fmul_fin_pinf, if_neg (ne_of_gt hsq_pos), if_pos hsq_pos]
    · subst hX hY
      have hs1 : Rat.sqrt q1 * Rat.sqrt q1 = q1 := heX
      have hs2 : Rat.sqrt q2 * Rat.sqrt q2 = q2 := heY
      rw [fmul_fin_fin, fsqrt_fin, fsqrt_fin, fsqrt_fin,
        if_neg (not_lt.mpr hq1), if_neg (not_lt.mpr hq2),
        if_neg (not_lt.mpr (mul_nonneg hq1 hq2)), fmul_fin_fin]
      have hprod : q1 * q2 =
          (Rat.sqrt q1 * Rat.sqrt q2) * (Rat.sqrt q1 * Rat.sqrt q2) := by
        linear_combination (-q2) * hs1 + (-(Rat.sqrt q1 * Rat.sqrt q1)) * hs2
      rw [hprod, Rat.sqrt_eq,
        abs_of_nonneg (mul_nonneg (Rat.sqrt_nonneg q1) (Rat.sqrt_nonneg q2))]

/-- C8: the cosine distance of `Bow.Cosine` returns exactly `1.0` (not
NaN) whenever either vector has zero magnitude, and agrees with the
spec's formula `1 - dot(a,b)/(mag(a)*mag(b))` (with the same NaN guard)
on every pair of equal-length vectors whose summed squares have exact
square roots in the model (the model computes with exact rationals, so
the formula equality is stated on the exactly-representable inputs; the
special values and the NaN guard are handled in full generality). -/
theorem cosine_formula (f1 f2 : List F) (hlen : f1.length = f2.length) :
    ((magnitudeF f1 = F.fin 0 ∨ magnitudeF f2 = F.fin 0) → cosineF f1 f2 = F.fin 1)
    ∧ (ExactSqrt (sumSq f1) → ExactSqrt (sumSq f2) →
        cosineF f1 f2 = cosineSpec f1 f2) := by
  constructor
  · intro h
    rcases h with h | h
    · exact cosineF_zero_mag_left h
    · exact cosineF_zero_mag_right h
  · intro he1 he2
    have htake : f2.take f1.length = f2 := by
      rw [hlen]
      exact List.take_length f2
    simp only [cosineF, cosineSpec, magnitudeF, htake]
    rw [fsqrt_fmul (sumSq_shape f1) (sumSq_shape f2) he1 he2]

/-- C8 witness: `a = (3,4)`, `b = (0,0)`: the zero-magnitude vector gives
exactly `1.0`, and the code's value agrees with the spec's formula (the
summed squares `25` and `0` have exact square roots `5` and `0`). -/
theorem cosine_formula_witness :
    cosineF [F.fin 3, F.fin 4] [F.fin 0, F.fin 0] = F.fin 1
    ∧ cosineF [F.fin 3, F.fin 4] [F.fin 0, F.fin 0] =
      cosineSpec [F.fin 3, F.fin 4] [F.fin 0, F.fin 0] := by
  have hz : sumSq [F.fin 0, F.fin 0] = F.fin 0 := by
    refine sumSq_all_zero _ ?_
    intro x hx
    rcases List.mem_cons.mp hx with hx | hx
    · exact hx
    · rw [List.mem_singleton.mp hx]
  have hm : magnitudeF [F.fin 0, F.fin 0] = F.fin 0 := by
    rw [magnitudeF, hz, fsqrt, if_neg (by norm_num), ratSqrt_zero]
  have h25 : sumSq [F.fin 3, F.fin 4] = F.fin 25 := by
    rw [show sumSq [F.fin 3, F.fin 4] = F.fin (0 + 3 * 3 + 4 * 4) from rfl]
    norm_num
  have hsqrt25 : Rat.sqrt 25 = 5 := by
    norm_num
  have hE1 : ExactSqrt (sumSq [F.fin 3, F.fin 4]) := by
    rw [h25]
    show Rat.sqrt 25 * Rat.sqrt 25 = 25
    rw [hsqrt25]
    norm_num
  have hE2 : ExactSqrt (sumSq [F.fin 0, F.fin 0]) := by
    rw [hz]
    show Rat.sqrt 0 * Rat.sqrt 0 = 0
    rw [ratSqrt_zero]
    norm_num
  exact ⟨(cosine_formula [F.fin 3, F.fin 4] [F.fin 0, F.fin 0] rfl).1 (Or.inr hm),
    (cosine_formula [F.fin 3, F.fin 4] [F.fin 0, F.fin 0] rfl).2 hE1 hE2⟩

end Fragbag
